import Mathlib

/-!
# Verification of the btk encrypted-journal replication core

This development shallowly embeds the replication core of the `btk`
repository and settles a list of claims about it:

* the crypto envelope: `Cloud::encrypt_tx`, `Cloud::decrypt_tx`
  (`crates/btk_client/src/data/cloud.rs`) and `Mutation::verify`
  (`crates/network_common/src/mutation.rs`);
* the relay servers: `BTKServer::handle_req`
  (`crates/btk_server/src/server.rs`) and `StorageCoordinator::fetch`
  (`crates/btk_worker/src/lib.rs`);
* the client sync engine: `RemoteCloud::tick`
  (`crates/btk_client/src/data/remote_cloud.rs`).

External crates (blake3, chacha20, ml-dsa, the anondb `Bytes` codec and
journal) are not part of the repository; they are modelled as abstract
primitives collected in a `Prims` structure, and the few standard
properties the proofs need (signature correctness, codec round-trip) are
stated explicitly as hypotheses.  Byte strings are modelled as `List Nat`.
-/

namespace BTK

/-- Byte strings (`Vec<u8>`, `[u8; 32]`, ...) are modelled as lists of
naturals; fixed lengths are not tracked because no claim depends on them. -/
abbrev Bytes := List Nat

/-- One journal operation.  Modelled from the spec: `JournalTransaction`
and `Operation` live in the external `anondb` crate (only their use sites
are in the repository); the spec gives
`Operation` as one of Insert(table, key, value), Remove(table, key), DeleteTable(table). -/
inductive Operation where
  | insert (table key value : Bytes)
  | remove (table key : Bytes)
  | deleteTable (table : Bytes)
  deriving DecidableEq

/-- Modelled from the spec: `JournalTransaction`
`{ index: u64, operations: ordered sequence of Operation, last_tx_hash: 32 bytes }`
(the type itself lives in the external `anondb` crate). -/
structure JournalTransaction where
  index : Nat
  operations : List Operation
  last_tx_hash : Bytes
  deriving DecidableEq

/-- The `Mutation` wire record from `crates/network_common/src/mutation.rs`. -/
structure Mutation where
  index : Nat
  data : Bytes
  signature : Bytes
  public_key_hash : Bytes
  public_key : Option Bytes
  salt : Bytes
  mutation_key : Option Bytes
  deriving DecidableEq

/-- Abstract models of the external primitives used by the repository.
Each field models one external-crate function; the repository's own code
is embedded as functions over an arbitrary `P : Prims`. -/
structure Prims where
  /-- `blake3::hash` (32-byte digest). -/
  blake3 : Bytes → Bytes
  /-- The ChaCha20 keystream: key → nonce → byte position → keystream byte.
  `chacha20::ChaCha20::apply_keystream` XORs the data with this stream. -/
  keystream : Bytes → Bytes → Nat → Nat
  /-- `MlDsa87::key_gen_internal(sk).verifying_key().encode()`. -/
  mlDsaVk : Bytes → Bytes
  /-- `MlDsa87::key_gen_internal(sk).sign(msg).encode()`. -/
  mlDsaSign : Bytes → Bytes → Bytes
  /-- vk bytes → message → signature bytes → the vk bytes parse as an
  ML-DSA-87 verifying key, the signature bytes parse, and the signature
  verifies over the message (the last three steps of `Mutation::verify`). -/
  sigOk : Bytes → Bytes → Bytes → Bool
  /-- `anondb::Bytes::encode` of a `JournalTransaction`. -/
  encodeTx : JournalTransaction → Bytes
  /-- `anondb::Bytes::parse` of a `JournalTransaction`. -/
  parseTx : Bytes → Option JournalTransaction
  /-- `anondb::Bytes::encode(&(private_key, index, salt))`, the key-derivation
  preimage used by `encrypt_tx` / `decrypt_tx`. -/
  encodeKeyPre : Bytes → Nat → Bytes → Bytes
  /-- `JournalTransaction::hash` (anondb): per the spec a pure function of
  the transaction. -/
  txHash : JournalTransaction → Bytes
  /-- `anondb::Bytes::parse` of a `Mutation` (used by the relays and sync). -/
  parseMutation : Bytes → Option Mutation
  /-- `anondb::Bytes::encode` of a `Mutation`. -/
  encodeMutation : Mutation → Bytes

/-- The standard properties of the external primitives the proofs need:
ML-DSA signatures made with a secret key verify under its verifying key,
and the anondb codec round-trips. -/
structure Good (P : Prims) : Prop where
  signCorrect : ∀ sk msg, P.sigOk (P.mlDsaVk sk) msg (P.mlDsaSign sk msg) = true
  parseEncodeTx : ∀ tx, P.parseTx (P.encodeTx tx) = some tx
  parseEncodeMutation : ∀ m, P.parseMutation (P.encodeMutation m) = some m

/-- Model of `chacha.apply_keystream(&mut data)` starting at stream position `i`:
XOR each byte with the keystream byte at its position. -/
def applyKeystream (ks : Nat → Nat) : Nat → Bytes → Bytes
  | _, [] => []
  | i, b :: bs => (b ^^^ ks i) :: applyKeystream ks (i + 1) bs

theorem applyKeystream_involution (ks : Nat → Nat) :
    ∀ (i : Nat) (l : Bytes), applyKeystream ks i (applyKeystream ks i l) = l := by
  intro i l
  induction l generalizing i with
  | nil => rfl
  | cons b bs ih =>
      simp [applyKeystream, Nat.xor_cancel_right, ih]

/-- The 12-byte all-zero nonce both `encrypt_tx` and `decrypt_tx` pass to
`ChaCha20::new` (`vec![0_u8; 12]`). -/
def zeroNonce : Bytes := List.replicate 12 0

/-- Model of `Cloud::id_from_key` (cloud.rs): deterministic ML-DSA-87 keygen, then
BLAKE3 of the encoded verifying key. -/
def cloudId (P : Prims) (sk : Bytes) : Bytes :=
  P.blake3 (P.mlDsaVk sk)

/-- The per-mutation symmetric key, as computed identically in
`encrypt_tx` and `decrypt_tx` (cloud.rs):
`blake3::hash(Bytes::encode(&(private_key, index, salt)))`. -/
def mutationKey (P : Prims) (sk : Bytes) (index : Nat) (salt : Bytes) : Bytes :=
  P.blake3 (P.encodeKeyPre sk index salt)

/-- Model of `Mutation::verify` (mutation.rs): check `blake3(pk) == public_key_hash`;
if `public_key` is present check byte-equality with the provided key; then
parse the verifying key and signature and verify the signature over `data`
(the last three steps are folded into `Prims.sigOk`). -/
def Mutation.verify (P : Prims) (m : Mutation) (pk : Bytes) : Bool :=
  if P.blake3 pk ≠ m.public_key_hash then false
  else
    match m.public_key with
    | some pkm => if pkm ≠ pk then false else P.sigOk pk m.data m.signature
    | none => P.sigOk pk m.data m.signature

/-- Model of `Cloud::encrypt_tx` (cloud.rs lines 229-268).  The salt is sampled with
`rand::random()` in the source; here it is an explicit argument. -/
def Cloud.encrypt_tx (P : Prims) (sk : Bytes) (tx : JournalTransaction)
    (salt : Bytes) : Mutation :=
  let k := mutationKey P sk tx.index salt
  let ct := applyKeystream (P.keystream k zeroNonce) 0 (P.encodeTx tx)
  { index := tx.index
    data := ct
    signature := P.mlDsaSign sk ct
    public_key_hash := cloudId P sk
    public_key := if tx.index = 0 then some (P.mlDsaVk sk) else none
    salt := salt
    mutation_key := none }

/-- Model of `Cloud::decrypt_tx` (cloud.rs lines 197-226): reject when
`public_key_hash` is not this cloud's id; run `Mutation::verify` against
this cloud's verifying key; derive the key from `(private_key,
mutation.index, mutation.salt)`; apply the ChaCha20 keystream; parse.
Failures (`bail!`, `?`) are modelled as `none`. -/
def Cloud.decrypt_tx (P : Prims) (sk : Bytes) (m : Mutation) :
    Option JournalTransaction :=
  if m.public_key_hash ≠ cloudId P sk then none
  else if Mutation.verify P m (P.mlDsaVk sk) = false then none
  else
    let k := mutationKey P sk m.index m.salt
    P.parseTx (applyKeystream (P.keystream k zeroNonce) 0 m.data)

theorem verify_encrypt (P : Prims) (sk : Bytes) (tx : JournalTransaction)
    (salt : Bytes) (hG : Good P) :
    Mutation.verify P (Cloud.encrypt_tx P sk tx salt) (P.mlDsaVk sk) = true := by
  unfold Mutation.verify Cloud.encrypt_tx
  simp only [cloudId]
  by_cases h : tx.index = 0 <;> simp [h, hG.signCorrect]

/-- Claim C1: Decrypting a mutation produced by `encrypt_tx` under the same
secret returns the original transaction: the public-key-hash check passes
(`public_key_hash` is this cloud's id by construction), `verify` passes
(the hash matches, the embedded public key when present is the cloud's
own, and the ML-DSA signature over the ciphertext verifies), the same
derived key and all-zero nonce make the ChaCha20 keystream application an
involution, and the codec round-trips. -/
theorem decrypt_encrypt_roundtrip (P : Prims) (sk : Bytes)
    (tx : JournalTransaction) (salt : Bytes) (hG : Good P) :
    Cloud.decrypt_tx P sk (Cloud.encrypt_tx P sk tx salt) = some tx := by
  have hv := verify_encrypt P sk tx salt hG
  simp only [Cloud.decrypt_tx, hv]
  simp [Cloud.encrypt_tx, applyKeystream_involution, hG.parseEncodeTx]

/-- Claim C4: `Mutation::verify` succeeds exactly when the BLAKE3 hash of the
provided public key equals `public_key_hash`, the embedded `public_key`
(when present) is byte-equal to the provided key, and the provided key
parses as an ML-DSA-87 verifying key under which `signature` is a valid
signature over `data`. -/
theorem verify_iff (P : Prims) (m : Mutation) (pk : Bytes) :
    Mutation.verify P m pk = true ↔
      (P.blake3 pk = m.public_key_hash
        ∧ (∀ pkm, m.public_key = some pkm → pkm = pk)
        ∧ P.sigOk pk m.data m.signature = true) := by
  unfold Mutation.verify
  by_cases h1 : P.blake3 pk = m.public_key_hash
  · cases hpk : m.public_key with
    | none => simp [h1, hpk]
    | some pkm =>
        by_cases h2 : pkm = pk <;> simp [h1, hpk, h2]
  · simp [h1]

/-- A mutation envelope carrying index `j` whose payload is the encryption
of `tx` under the key derived for index `j`: exactly what `encrypt_tx`
builds, except that the envelope index `j` is decoupled from `tx.index`.
Any keyholder can produce such a mutation. -/
def encryptAt (P : Prims) (sk : Bytes) (j : Nat) (tx : JournalTransaction)
    (salt : Bytes) : Mutation :=
  let k := mutationKey P sk j salt
  let ct := applyKeystream (P.keystream k zeroNonce) 0 (P.encodeTx tx)
  { index := j
    data := ct
    signature := P.mlDsaSign sk ct
    public_key_hash := cloudId P sk
    public_key := if j = 0 then some (P.mlDsaVk sk) else none
    salt := salt
    mutation_key := none }

/-- Claim C5, amended: `decrypt_tx` performs no comparison between the
decrypted transaction's `index` and `mutation.index`: whenever the
public-key-hash and signature checks pass it returns the decrypted
transaction, even when that transaction's index differs from the envelope
index.  (The only index-equality assertion in the repository is the
caller-side `assert_eq!` in `RemoteCloud::tick`.) -/
theorem decrypt_tx_ignores_inner_index (P : Prims) (sk : Bytes)
    (tx : JournalTransaction) (salt : Bytes) (j : Nat) (hG : Good P) :
    Cloud.decrypt_tx P sk (encryptAt P sk j tx salt) = some tx := by
  have hv : Mutation.verify P (encryptAt P sk j tx salt) (P.mlDsaVk sk) = true := by
    unfold Mutation.verify encryptAt
    simp only [cloudId]
    by_cases h : j = 0 <;> simp [h, hG.signCorrect]
  simp only [Cloud.decrypt_tx, hv]
  simp [encryptAt, applyKeystream_involution, hG.parseEncodeTx]

/-- The per-mutation symmetric key written the way the spec words it:
`K = BLAKE3(encode(k, index, salt))`. -/
def specDerivedKey (P : Prims) (sk : Bytes) (index : Nat) (salt : Bytes) : Bytes :=
  P.blake3 (P.encodeKeyPre sk index salt)

/-- ChaCha20 stream encryption written the way the spec words it: apply
the keystream for `(key, nonce)` to the data, starting at position 0. -/
def chacha20Apply (P : Prims) (key nonce data : Bytes) : Bytes :=
  applyKeystream (P.keystream key nonce) 0 data

/-- Claim C6: Both `encrypt_tx` and `decrypt_tx` derive the per-mutation key
as `K = BLAKE3(encode(private_key, index, salt))` over the mutation's
index and salt and apply ChaCha20 with key `K` and a 12-byte all-zero
nonce to the transaction bytes: the ciphertext produced by `encrypt_tx`
and the plaintext consumed by `decrypt_tx` (on any mutation passing its
checks) are exactly the keystream application under that key and nonce. -/
theorem mutation_key_and_nonce (P : Prims) (sk : Bytes) :
    (∀ (tx : JournalTransaction) (salt : Bytes),
      (Cloud.encrypt_tx P sk tx salt).data
        = chacha20Apply P (specDerivedKey P sk tx.index salt)
            (List.replicate 12 0) (P.encodeTx tx))
    ∧ (∀ m : Mutation, m.public_key_hash = cloudId P sk →
        Mutation.verify P m (P.mlDsaVk sk) = true →
        Cloud.decrypt_tx P sk m
          = P.parseTx (chacha20Apply P (specDerivedKey P sk m.index m.salt)
              (List.replicate 12 0) m.data)) := by
  constructor
  · intro tx salt
    rfl
  · intro m hid hv
    simp [Cloud.decrypt_tx, hid, hv, chacha20Apply, specDerivedKey,
      mutationKey, zeroNonce]

/-! ## The `btk_server` relay (`crates/btk_server/src/server.rs`)

Each cloud's mutations live in a redb table named by the hex encoding of
the cloud id (hex encoding is injective, so tables are keyed here by the
raw id bytes), keyed by `u64` index; the verifying keys live in the
`known_public_keys` table.  A redb table is modelled as an association
list whose `insert` replaces an existing key or appends, and whose `len`
is the number of entries. -/

/-- redb `table.get(key)`. -/
def assocGet (k : Nat) : List (Nat × Mutation) → Option Mutation
  | [] => none
  | (k', v) :: rest => if k' = k then some v else assocGet k rest

/-- redb `table.insert(key, value)`: replace the entry for the key if
present, append otherwise. -/
def assocPut (k : Nat) (v : Mutation) : List (Nat × Mutation) → List (Nat × Mutation)
  | [] => [(k, v)]
  | (k', v') :: rest =>
      if k' = k then (k', v) :: rest else (k', v') :: assocPut k v rest

theorem assocGet_assocPut_self (k : Nat) (v : Mutation)
    (l : List (Nat × Mutation)) : assocGet k (assocPut k v l) = some v := by
  induction l with
  | nil => simp [assocPut, assocGet]
  | cons hd tl ih =>
      obtain ⟨k', v'⟩ := hd
      by_cases h : k' = k <;> simp [assocPut, assocGet, h, ih]

theorem assocGet_assocPut_ne (k k' : Nat) (v : Mutation)
    (l : List (Nat × Mutation)) (h : k' ≠ k) :
    assocGet k' (assocPut k v l) = assocGet k' l := by
  induction l with
  | nil => simp [assocPut, assocGet, Ne.symm h]
  | cons hd tl ih =>
      obtain ⟨k₀, v₀⟩ := hd
      by_cases h0 : k₀ = k
      · subst h0
        simp [assocPut, assocGet, Ne.symm h]
      · by_cases h1 : k₀ = k' <;> simp [assocPut, assocGet, h0, h1, ih, h]

theorem length_assocPut_of_none (k : Nat) (v : Mutation)
    (l : List (Nat × Mutation)) (h : assocGet k l = none) :
    (assocPut k v l).length = l.length + 1 := by
  induction l with
  | nil => simp [assocPut]
  | cons hd tl ih =>
      obtain ⟨k₀, v₀⟩ := hd
      by_cases h0 : k₀ = k
      · simp [assocGet, h0] at h
      · simp [assocGet, h0] at h
        simp [assocPut, h0, ih h]

/-- State of `BTKServer`: the per-cloud mutation tables (named by cloud
id) and the `known_public_keys` table. -/
structure ServerSt where
  tables : Bytes → List (Nat × Mutation)
  pubKeys : Bytes → Option Bytes

def ServerSt.empty : ServerSt :=
  { tables := fun _ => [], pubKeys := fun _ => none }

/-- Response payloads of `Req::respond`: empty body, an encoded count
(`GET /state`), or an encoded mutation (`GET /mutation`). -/
inductive SPayload where
  | empty
  | count (n : Nat)
  | mutation (m : Mutation)
  deriving DecidableEq

/-- The requests `BTKServer::handle_req` dispatches on.  `getState` /
`getMutation` carry already-validated query parameters (a missing or
malformed `cloud_id`/`index` is answered 400, or errors out, before any
state is touched); `mutate` carries the raw body bytes; `other` is any
unmatched method/path pair. -/
inductive SReq where
  | getState (cid : Bytes)
  | getMutation (cid : Bytes) (idx : Nat)
  | mutate (body : Bytes)
  | other

/-- Step 2 of the acceptance algorithm: the public key from the mutation
if provided, else the `known_public_keys` entry for `public_key_hash`. -/
def resolveKey (st : ServerSt) (m : Mutation) : Option Bytes :=
  match m.public_key with
  | some pk => some pk
  | none => st.pubKeys m.public_key_hash

/-- The state after an accepted `POST /mutate`: commit of the mutation
insert into the cloud's table and, when `index == 0`, of the public key
into `known_public_keys`. -/
def acceptMutation (st : ServerSt) (m : Mutation) (pk : Bytes) : ServerSt :=
  { tables := fun x =>
      if x = m.public_key_hash
      then assocPut m.index m (st.tables m.public_key_hash)
      else st.tables x
    pubKeys :=
      if m.index = 0
      then fun x => if x = m.public_key_hash then some pk else st.pubKeys x
      else st.pubKeys }

/-- The `POST /mutate` branch of `BTKServer::handle_req` after a
successful body parse: resolve the public key (400 when impossible),
verify (401 on failure), compare the index with the table length (410 on
mismatch, before `tx.commit()`, so without a state change), else insert
and commit. -/
def serverMutateParsed (P : Prims) (st : ServerSt) (m : Mutation) :
    ServerSt × Option (Nat × SPayload) :=
  match resolveKey st m with
  | none => (st, some (400, .empty))
  | some pk =>
    if Mutation.verify P m pk = false then (st, some (401, .empty))
    else if m.index ≠ (st.tables m.public_key_hash).length then
      (st, some (410, .empty))
    else
      (acceptMutation st m pk, some (204, .empty))

/-- The `POST /mutate` branch of `BTKServer::handle_req` (server.rs lines
138-178).  The response is `none` when the handler propagates an error
with `?` and never responds (an unparseable body). -/
def serverMutate (P : Prims) (st : ServerSt) (body : Bytes) :
    ServerSt × Option (Nat × SPayload) :=
  match P.parseMutation body with
  | none => (st, none)
  | some m => serverMutateParsed P st m

/-- Model of `BTKServer::handle_req` (server.rs lines 93-181) as a state
transformer. -/
def serverStep (P : Prims) (st : ServerSt) : SReq → ServerSt × Option (Nat × SPayload)
  | .getState cid => (st, some (200, .count (st.tables cid).length))
  | .getMutation cid idx =>
      (st, match assocGet idx (st.tables cid) with
           | some m => some (200, .mutation m)
           | none => some (404, .empty))
  | .mutate body => serverMutate P st body
  | .other => (st, some (410, .empty))

/-- Run a request sequence from a given state. -/
def serverRunFrom (P : Prims) (st : ServerSt) : List SReq → ServerSt
  | [] => st
  | r :: rest => serverRunFrom P (serverStep P st r).1 rest

/-- Run a request sequence from the relay's initial (empty) state. -/
def serverRun (P : Prims) (reqs : List SReq) : ServerSt :=
  serverRunFrom P ServerSt.empty reqs

/-- The reachability invariant: every per-cloud table is densely keyed by
`0 .. len`. -/
def Dense (st : ServerSt) : Prop :=
  ∀ (cid : Bytes) (i : Nat),
    (assocGet i (st.tables cid)).isSome ↔ i < (st.tables cid).length

theorem dense_empty : Dense ServerSt.empty := by
  intro cid i
  simp [ServerSt.empty, assocGet]

theorem dense_no_entry (st : ServerSt) (hD : Dense st) (cid : Bytes) :
    assocGet (st.tables cid).length (st.tables cid) = none := by
  have := hD cid (st.tables cid).length
  cases hg : assocGet (st.tables cid).length (st.tables cid) with
  | none => rfl
  | some x =>
      exfalso
      have h1 : (st.tables cid).length < (st.tables cid).length := by
        rw [← this, hg]
        rfl
      omega

theorem acceptMutation_preserves (st : ServerSt) (m : Mutation) (pk : Bytes)
    (hD : Dense st) (hi : m.index = (st.tables m.public_key_hash).length) :
    Dense (acceptMutation st m pk)
      ∧ ∀ (cid : Bytes) (i : Nat) (m₀ : Mutation),
          assocGet i (st.tables cid) = some m₀ →
          assocGet i ((acceptMutation st m pk).tables cid) = some m₀ := by
  have habs : assocGet m.index (st.tables m.public_key_hash) = none := by
    rw [hi]
    exact dense_no_entry st hD m.public_key_hash
  have htbl : ∀ cid, (acceptMutation st m pk).tables cid
      = if cid = m.public_key_hash
        then assocPut m.index m (st.tables m.public_key_hash)
        else st.tables cid := by
    intro cid
    rfl
  constructor
  · intro cid i
    rw [htbl]
    by_cases hc : cid = m.public_key_hash
    · rw [if_pos hc]
      rw [length_assocPut_of_none _ _ _ habs]
      by_cases hik : i = m.index
      · subst hik
        simp [assocGet_assocPut_self, hi]
      · rw [assocGet_assocPut_ne _ _ _ _ hik, hD]
        omega
    · rw [if_neg hc]
      exact hD cid i
  · intro cid i m₀ h
    rw [htbl]
    by_cases hc : cid = m.public_key_hash
    · rw [if_pos hc]
      have hne : i ≠ m.index := by
        intro he
        rw [hc, he, habs] at h
        exact Option.noConfusion h
      rw [assocGet_assocPut_ne _ _ _ _ hne]
      rw [hc] at h
      exact h
    · rw [if_neg hc]
      exact h

theorem serverMutateParsed_state (P : Prims) (st : ServerSt) (m : Mutation) :
    (serverMutateParsed P st m).1 = st
      ∨ ∃ pk, m.index = (st.tables m.public_key_hash).length
          ∧ (serverMutateParsed P st m).1 = acceptMutation st m pk := by
  cases hr : resolveKey st m with
  | none =>
      refine Or.inl ?_
      simp only [serverMutateParsed, hr]
  | some pk =>
      have he : serverMutateParsed P st m
          = (if Mutation.verify P m pk = false then (st, some (401, .empty))
             else if m.index ≠ (st.tables m.public_key_hash).length then
               (st, some (410, .empty))
             else (acceptMutation st m pk, some (204, .empty))) := by
        simp only [serverMutateParsed, hr]
      rw [he]
      by_cases hv : Mutation.verify P m pk = false
      · rw [if_pos hv]
        exact Or.inl rfl
      · rw [if_neg hv]
        by_cases hi : m.index = (st.tables m.public_key_hash).length
        · rw [if_neg (not_not_intro hi)]
          exact Or.inr ⟨pk, hi, rfl⟩
        · rw [if_pos hi]
          exact Or.inl rfl

theorem serverMutate_state (P : Prims) (st : ServerSt) (body : Bytes) :
    (serverMutate P st body).1 = st
      ∨ ∃ m pk, P.parseMutation body = some m
          ∧ m.index = (st.tables m.public_key_hash).length
          ∧ (serverMutate P st body).1 = acceptMutation st m pk := by
  cases hp : P.parseMutation body with
  | none =>
      refine Or.inl ?_
      simp only [serverMutate, hp]
  | some m =>
      have he : serverMutate P st body = serverMutateParsed P st m := by
        simp only [serverMutate, hp]
      rw [he]
      rcases serverMutateParsed_state P st m with h | ⟨pk, hi, h⟩
      · exact Or.inl h
      · exact Or.inr ⟨m, pk, rfl, hi, h⟩

theorem serverStep_preserves (P : Prims) (st : ServerSt) (r : SReq)
    (hD : Dense st) :
    Dense (serverStep P st r).1
      ∧ ∀ (cid : Bytes) (i : Nat) (m : Mutation),
          assocGet i (st.tables cid) = some m →
          assocGet i ((serverStep P st r).1.tables cid) = some m := by
  cases r with
  | getState cid => exact ⟨hD, fun _ _ _ h => h⟩
  | getMutation cid idx => exact ⟨hD, fun _ _ _ h => h⟩
  | other => exact ⟨hD, fun _ _ _ h => h⟩
  | mutate body =>
      show Dense (serverMutate P st body).1
        ∧ ∀ (cid : Bytes) (i : Nat) (m : Mutation),
            assocGet i (st.tables cid) = some m →
            assocGet i ((serverMutate P st body).1.tables cid) = some m
      rcases serverMutate_state P st body with h | ⟨m, pk, _, hi, h⟩
      · rw [h]
        exact ⟨hD, fun _ _ _ h => h⟩
      · rw [h]
        exact acceptMutation_preserves st m pk hD hi

theorem serverRunFrom_dense (P : Prims) (reqs : List SReq) (st : ServerSt)
    (hD : Dense st) : Dense (serverRunFrom P st reqs) := by
  induction reqs generalizing st with
  | nil => exact hD
  | cons r rest ih =>
      exact ih _ (serverStep_preserves P st r hD).1

theorem serverRun_dense (P : Prims) (reqs : List SReq) :
    Dense (serverRun P reqs) :=
  serverRunFrom_dense P reqs ServerSt.empty dense_empty

theorem serverMutate_accepted (P : Prims) (st : ServerSt) (body : Bytes)
    (m : Mutation) (hp : P.parseMutation body = some m)
    (h204 : (serverMutate P st body).2 = some (204, .empty)) :
    m.index = (st.tables m.public_key_hash).length
      ∧ assocGet m.index
          ((serverMutate P st body).1.tables m.public_key_hash) = some m := by
  have he : serverMutate P st body = serverMutateParsed P st m := by
    simp only [serverMutate, hp]
  rw [he] at h204 ⊢
  cases hr : resolveKey st m with
  | none =>
      exfalso
      simp only [serverMutateParsed, hr] at h204
      exact absurd h204 (by decide)
  | some pk =>
      have he2 : serverMutateParsed P st m
          = (if Mutation.verify P m pk = false then (st, some (401, .empty))
             else if m.index ≠ (st.tables m.public_key_hash).length then
               (st, some (410, .empty))
             else (acceptMutation st m pk, some (204, .empty))) := by
        simp only [serverMutateParsed, hr]
      rw [he2] at h204 ⊢
      by_cases hv : Mutation.verify P m pk = false
      · rw [if_pos hv] at h204
        simp at h204
      · rw [if_neg hv] at h204 ⊢
        by_cases hi : m.index = (st.tables m.public_key_hash).length
        · rw [if_neg (not_not_intro hi)]
          refine ⟨hi, ?_⟩
          show assocGet m.index
              (if m.public_key_hash = m.public_key_hash
               then assocPut m.index m (st.tables m.public_key_hash)
               else st.tables m.public_key_hash) = some m
          rw [if_pos rfl]
          exact assocGet_assocPut_self _ _ _
        · rw [if_pos hi] at h204
          simp at h204

/-- Claim C2: In every reachable relay (`btk_server`) state the stored
mutations of every cloud are densely indexed `0..count` with exactly one
entry per `(id, index)`: keys present are exactly those below the table
length, a `POST /mutate` is accepted with 204 (and the mutation stored)
only when its index equals the current stored count, and a stored
mutation at an index survives any subsequent request unchanged. -/
theorem relay_dense_append_only (P : Prims) (reqs : List SReq)
    (cid : Bytes) (i : Nat) :
    ((assocGet i ((serverRun P reqs).tables cid)).isSome
        ↔ i < ((serverRun P reqs).tables cid).length)
    ∧ (∀ (body : Bytes) (m : Mutation), P.parseMutation body = some m →
        (serverStep P (serverRun P reqs) (.mutate body)).2 = some (204, .empty) →
        m.index = ((serverRun P reqs).tables m.public_key_hash).length
          ∧ assocGet m.index
              ((serverStep P (serverRun P reqs) (.mutate body)).1.tables
                m.public_key_hash) = some m)
    ∧ (∀ (r : SReq) (m : Mutation),
        assocGet i ((serverRun P reqs).tables cid) = some m →
        assocGet i ((serverStep P (serverRun P reqs) r).1.tables cid) = some m) := by
  refine ⟨serverRun_dense P reqs cid i, ?_, ?_⟩
  · intro body m hp h204
    exact serverMutate_accepted P (serverRun P reqs) body m hp h204
  · intro r m h
    exact (serverStep_preserves P (serverRun P reqs) r
      (serverRun_dense P reqs)).2 cid i m h

/-- Response characterization of `GET /mutation` on `btk_server`: under
density, 200 with the stored mutation below the count, 404 at or above
it. -/
theorem serverGet_spec (P : Prims) (st : ServerSt) (cid : Bytes) (i : Nat)
    (hD : Dense st) :
    (i < (st.tables cid).length →
      ∃ m, assocGet i (st.tables cid) = some m
        ∧ (serverStep P st (.getMutation cid i)).2 = some (200, .mutation m))
    ∧ ((st.tables cid).length ≤ i →
        (serverStep P st (.getMutation cid i)).2 = some (404, .empty)) := by
  constructor
  · intro hlt
    have := (hD cid i).2 hlt
    cases hg : assocGet i (st.tables cid) with
    | none => rw [hg] at this; exact absurd this (by simp)
    | some m =>
        refine ⟨m, rfl, ?_⟩
        show ((st, match assocGet i (st.tables cid) with
                   | some m => some (200, SPayload.mutation m)
                   | none => some (404, SPayload.empty))).2 = _
        rw [hg]
  · intro hge
    have : assocGet i (st.tables cid) = none := by
      cases hg : assocGet i (st.tables cid) with
      | none => rfl
      | some m =>
          exfalso
          have h1 : i < (st.tables cid).length := (hD cid i).1 (by rw [hg]; rfl)
          omega
    show ((st, match assocGet i (st.tables cid) with
               | some m => some (200, SPayload.mutation m)
               | none => some (404, SPayload.empty))).2 = _
    rw [this]

/-- Branch-by-branch response behaviour of the `POST /mutate` handler on
`btk_server`. -/
theorem serverMutate_responses (P : Prims) (st : ServerSt) (body : Bytes) :
    (P.parseMutation body = none → serverMutate P st body = (st, none))
    ∧ (∀ m, P.parseMutation body = some m →
        (resolveKey st m = none →
          serverMutate P st body = (st, some (400, .empty)))
        ∧ (∀ pk, resolveKey st m = some pk →
            (Mutation.verify P m pk = false →
              serverMutate P st body = (st, some (401, .empty)))
            ∧ (Mutation.verify P m pk = true →
                m.index ≠ (st.tables m.public_key_hash).length →
                serverMutate P st body = (st, some (410, .empty)))
            ∧ (Mutation.verify P m pk = true →
                m.index = (st.tables m.public_key_hash).length →
                serverMutate P st body
                  = (acceptMutation st m pk, some (204, .empty))))) := by
  constructor
  · intro hp
    simp only [serverMutate, hp]
  · intro m hp
    have he : serverMutate P st body = serverMutateParsed P st m := by
      simp only [serverMutate, hp]
    rw [he]
    constructor
    · intro hr
      simp only [serverMutateParsed, hr]
    · intro pk hr
      have he2 : serverMutateParsed P st m
          = (if Mutation.verify P m pk = false then (st, some (401, .empty))
             else if m.index ≠ (st.tables m.public_key_hash).length then
               (st, some (410, .empty))
             else (acceptMutation st m pk, some (204, .empty))) := by
        simp only [serverMutateParsed, hr]
      rw [he2]
      refine ⟨fun hv => by rw [if_pos hv], fun hv hi => ?_, fun hv hi => ?_⟩
      · rw [if_neg (by simp [hv]), if_pos hi]
      · rw [if_neg (by simp [hv]), if_neg (not_not_intro hi)]

/-! ## The `btk_worker` relay (`crates/btk_worker/src/lib.rs`)

The production relay is a Cloudflare durable object (one per cloud id)
over an R2 bucket.  Bucket objects are keyed by distinguishable string
formats (`cloud-<hex>-<index>`, `cloud-<hex>-count`, `<hex(hash)>`), so
the bucket is modelled as three separate maps; `hex` encoding is
injective, so keys carry the raw id bytes. -/

/-- The `u32` modulus: the worker stores blob keys with `mutation.index as
u32` and parses counts as `u32`. -/
def U32 : Nat := 2 ^ 32

structure WorkerSt where
  /-- `cloud-<hex(id)>-<index>` objects: the raw mutation bytes. -/
  blobs : Bytes → Nat → Option Bytes
  /-- `cloud-<hex(id)>-count` objects. -/
  counts : Bytes → Option Nat
  /-- `<hex(hash)>` objects: verifying keys stored at index 0. -/
  pubkeys : Bytes → Option Bytes
  /-- `mutation_count_lock`: the in-object count cache. -/
  cache : Option Nat

def WorkerSt.empty : WorkerSt :=
  { blobs := fun _ _ => none, counts := fun _ => none
    pubkeys := fun _ => none, cache := none }

/-- Model of `StorageCoordinator::load_mutation_count`: missing object or body
reads as 0; the body is parsed as a `u32`. -/
def workerLoadCount (st : WorkerSt) (cid : Bytes) : Nat :=
  ((st.counts cid).getD 0) % U32

/-- Model of `StorageCoordinator::mutation_count`: the cached count when present,
else load and fill the cache. -/
def workerCount (st : WorkerSt) (cid : Bytes) : Nat × WorkerSt :=
  match st.cache with
  | some c => (c, st)
  | none => (workerLoadCount st cid, { st with cache := some (workerLoadCount st cid) })

/-- The `GET /mutation` branch of `StorageCoordinator::fetch` (lib.rs
lines 153-181): **424** (FAILED_DEPENDENCY) when `index >= mutation_count`,
otherwise the stored blob with 200 (`obj_maybe.unwrap()` panics when the
blob is missing, modelled as no response). -/
def workerGetMutation (st : WorkerSt) (cid : Bytes) (idx : Nat) :
    Option (Nat × Option Bytes) × WorkerSt :=
  let c := (workerCount st cid).1
  let st' := (workerCount st cid).2
  if idx ≥ c then (some (424, none), st')
  else
    match st'.blobs cid (idx % U32) with
    | some b => (some (200, some b), st')
    | none => (none, st')

/-- Step 2 of the key resolution in `StorageCoordinator::fetch` of the `POST /mutate` resolution:
the mutation public key when set, else the stored hash-keyed object. -/
def workerResolveKey (st : WorkerSt) (m : Mutation) : Option Bytes :=
  match m.public_key with
  | some pk => some pk
  | none => st.pubkeys m.public_key_hash

/-- The writes of an accepted worker `POST /mutate`: the public key at
index 0, the raw body under `cloud-<hex>-<index as u32>`, the new count
(`index + 1`), and the count cache (`as u32`). -/
def workerAccept (st : WorkerSt) (m : Mutation) (pk body : Bytes) : WorkerSt :=
  { blobs := fun x j =>
      if x = m.public_key_hash ∧ j = m.index % U32
      then some body else st.blobs x j
    counts := fun x =>
      if x = m.public_key_hash then some (m.index + 1) else st.counts x
    pubkeys :=
      if m.index = 0
      then fun x => if x = m.public_key_hash then some pk else st.pubkeys x
      else st.pubkeys
    cache := some ((m.index + 1) % U32) }

/-- The `POST /mutate` branch of `StorageCoordinator::fetch` after a
successful body parse. -/
def workerMutateParsed (P : Prims) (st : WorkerSt) (body : Bytes)
    (m : Mutation) : Option Nat × WorkerSt :=
  match workerResolveKey st m with
  | none => (some 400, st)
  | some pk =>
    if Mutation.verify P m pk = false then (some 401, st)
    else if m.index ≠ workerLoadCount st m.public_key_hash then
      (some 400, st)
    else (some 204, workerAccept st m pk body)

/-- The `POST /mutate` branch of `StorageCoordinator::fetch` (lib.rs
lines 182-249): a parse failure propagates as a runtime error (no
handler response); a missing public key yields 400; a verify failure
401; an index different from the freshly loaded count yields **400** (not
410); otherwise the writes of `workerAccept` happen and the response is
204. -/
def workerMutate (P : Prims) (st : WorkerSt) (body : Bytes) :
    Option Nat × WorkerSt :=
  match P.parseMutation body with
  | none => (none, st)
  | some m => workerMutateParsed P st body m

theorem workerGetMutation_stale (st : WorkerSt) (cid : Bytes) (idx : Nat)
    (h : idx ≥ (workerCount st cid).1) :
    (workerGetMutation st cid idx).1 = some (424, none) := by
  unfold workerGetMutation
  simp [h]

theorem workerMutate_index_mismatch (P : Prims) (st : WorkerSt)
    (body : Bytes) (m : Mutation) (pk : Bytes)
    (hp : P.parseMutation body = some m)
    (hk : workerResolveKey st m = some pk)
    (hv : Mutation.verify P m pk = true)
    (hi : m.index ≠ workerLoadCount st m.public_key_hash) :
    workerMutate P st body = (some 400, st) := by
  have he : workerMutate P st body
      = (if Mutation.verify P m pk = false then (some 401, st)
         else if m.index ≠ workerLoadCount st m.public_key_hash then
           (some 400, st)
         else (some 204, workerAccept st m pk body)) := by
    simp only [workerMutate, hp, workerMutateParsed, hk]
  rw [he, if_neg (by simp [hv]), if_pos hi]

/-! ## The sync engine (`crates/btk_client/src/data/remote_cloud.rs`)

`RemoteCloud::tick` is a network-driven state machine.  The relay's
behaviour during one tick is an oracle `TickEnv`: the result of
`GET /mutation?index=i` per index, the result of the `POST /mutate` per
index, the `GET /state` result, and the pending WebSocket responses.
The push loop queries only indices below the tick-start journal length
and the pull loop only indices at or above it, so a single per-index
oracle is faithful.  `?`-propagated failures (transport errors, body
read/parse failures, decrypt failures, `append_tx` failures, the
`assert_eq!` panic) end the tick with an error; statuses already
persisted stay persisted. -/

/-- Outcome of one `reqwest::get` on `/mutation`: success with body
bytes, 424 FAILED_DEPENDENCY, another non-success status, or a transport
error (which `?` propagates). -/
inductive GetRes where
  | ok (body : Bytes)
  | failedDep
  | badStatus
  | netErr

/-- Outcome of the `POST /mutate` call. -/
inductive PostRes where
  | ok
  | badStatus
  | netErr

/-- Outcome of the `GET /state` call (success includes body parse). -/
inductive StateRes where
  | ok (n : Nat)
  | badStatus
  | netErr

structure TickEnv where
  get : Nat → GetRes
  post : Nat → PostRes
  /-- Number of non-`Pong` WebSocket responses drained by `receive()`. -/
  wsNonPong : Nat
  state : StateRes

/-- The per-cloud client state `tick` reads and writes: the cloud's
journal (`cloud.db`) and the persisted sync cursor. -/
structure SyncSt where
  journal : List JournalTransaction
  confirmed : Option Nat
  initialSyncComplete : Bool
  syncEnabled : Bool

/-- Observable actions of one tick, in program order: sync-status
messages, `set_latest_confirmed_index` calls, journal appends, POSTs. -/
inductive Ev where
  | syncDisabled
  | confirmedMsg (i len : Nat)
  | diverged (i : Nat)
  | broadcasting (i : Nat)
  | posted (i : Nat)
  | pushFailed
  | unknownStatus
  | setIdx (v : Nat)
  | appended (tx : JournalTransaction)
  | downloading (i : Nat)
  | downloadErr (i : Nat)
  | fullySync
  | remoteUpdate
  deriving DecidableEq

/-- How the push loop ended: ran through all indices, `return Ok(())`
(divergence or push failure), `?`/panic abort, or `break` (unknown GET
status; the tick then still continues past the loop). -/
inductive PushExit where
  | done
  | returned
  | aborted
  | broke
  deriving DecidableEq

structure PushRes where
  conf : Option Nat
  evs : List Ev
  exit : PushExit

/-- The `continue`-guard of the push loop:
skip the index when the persisted cursor `c` satisfies `c >= i`. -/
def skipIdx (conf : Option Nat) (i : Nat) : Bool :=
  match conf with
  | some c => decide (i ≤ c)
  | none => false

/-- The push loop of `RemoteCloud::tick` (remote_cloud.rs lines 141-210)
over the listed indices (`0..journal_len` in the source).  On a 200 the
body is parsed, decrypted (`decrypt_tx`), the returned mutation index is
asserted equal to the loop index, and the transaction hashes compared:
a match confirms the index (persisting the cursor first, then sending the
status), a mismatch reports divergence and returns.  On a 424 the local
transaction is encrypted and POSTed: success confirms the index, any
other status reports a push failure and returns, a transport error
aborts.  Any other GET status breaks out of the loop. -/
def pushLoop (P : Prims) (sk : Bytes) (env : TickEnv)
    (journal : List JournalTransaction) :
    List Nat → Option Nat → PushRes
  | [], conf => ⟨conf, [], .done⟩
  | i :: rest, conf =>
    if skipIdx conf i then pushLoop P sk env journal rest conf
    else
      match journal.get? i with
      | none => ⟨conf, [], .aborted⟩
      | some tx =>
        match env.get i with
        | .netErr => ⟨conf, [], .aborted⟩
        | .badStatus => ⟨conf, [.unknownStatus], .broke⟩
        | .failedDep =>
            match env.post i with
            | .netErr => ⟨conf, [.broadcasting i, .posted i], .aborted⟩
            | .badStatus =>
                ⟨conf, [.broadcasting i, .posted i, .pushFailed], .returned⟩
            | .ok =>
                let r := pushLoop P sk env journal rest (some i)
                ⟨r.conf, .broadcasting i :: .posted i :: .setIdx i :: r.evs, r.exit⟩
        | .ok body =>
            match P.parseMutation body with
            | none => ⟨conf, [], .aborted⟩
            | some m =>
              match Cloud.decrypt_tx P sk m with
              | none => ⟨conf, [], .aborted⟩
              | some rtx =>
                if m.index ≠ i then ⟨conf, [], .aborted⟩
                else if P.txHash rtx = P.txHash tx then
                  let r := pushLoop P sk env journal rest (some i)
                  ⟨r.conf, .setIdx i :: .confirmedMsg i journal.length :: r.evs, r.exit⟩
                else ⟨conf, [.diverged i], .returned⟩

/-- The hash the next appended transaction must chain from.  Modelled
from the spec (anondb `append_tx` is external): the hash of the current
tail, genesis = 32 zero bytes. -/
def chainTip (P : Prims) (j : List JournalTransaction) : Bytes :=
  match j.getLast? with
  | none => List.replicate 32 0
  | some t => P.txHash t

/-- anondb `Journal::append_tx` acceptance.  Modelled from the spec
(§4.2): the pre-built transaction must carry `index == current_len` and a
`last_tx_hash` matching the local tail hash, else the call fails. -/
def appendOk (P : Prims) (j : List JournalTransaction)
    (tx : JournalTransaction) : Bool :=
  decide (tx.index = j.length) && decide (tx.last_tx_hash = chainTip P j)

structure PullRes where
  journal : List JournalTransaction
  conf : Option Nat
  evs : List Ev
  ok : Bool
  cur : Nat

/-- The pull phase of `RemoteCloud::tick` (remote_cloud.rs lines
240-272): while the remote count exceeds the local index, GET the next
mutation, decrypt, `append_tx`, persist the cursor, and emit a UI update;
a non-success GET status reports a download error and breaks; transport,
parse, decrypt or append failures abort the tick.  The fuel argument is
`remote - current`, consumed once per iteration. -/
def pullLoop (P : Prims) (sk : Bytes) (env : TickEnv) :
    Nat → Nat → List JournalTransaction → Option Nat → PullRes
  | 0, cur, j, conf => ⟨j, conf, [], true, cur⟩
  | fuel + 1, cur, j, conf =>
    match env.get cur with
    | .netErr => ⟨j, conf, [.downloading cur], false, cur⟩
    | .failedDep => ⟨j, conf, [.downloading cur, .downloadErr cur], true, cur⟩
    | .badStatus => ⟨j, conf, [.downloading cur, .downloadErr cur], true, cur⟩
    | .ok body =>
      match P.parseMutation body with
      | none => ⟨j, conf, [.downloading cur], false, cur⟩
      | some m =>
        match Cloud.decrypt_tx P sk m with
        | none => ⟨j, conf, [.downloading cur], false, cur⟩
        | some rtx =>
          if appendOk P j rtx then
            let r := pullLoop P sk env fuel (cur + 1) (j ++ [rtx]) (some cur)
            ⟨r.journal, r.conf,
              .downloading cur :: .appended rtx :: .setIdx cur :: .remoteUpdate :: r.evs,
              r.ok, r.cur⟩
          else ⟨j, conf, [.downloading cur], false, cur⟩

/-- One `RemoteCloud::tick` (remote_cloud.rs lines 118-283).  Returns the
new persisted state, the events in program order, and whether the tick
returned `Ok`. -/
def tick (P : Prims) (sk : Bytes) (st : SyncSt) (env : TickEnv) :
    SyncSt × List Ev × Bool :=
  if st.syncEnabled = false then (st, [.syncDisabled], true)
  else
    let len := st.journal.length
    let pr := pushLoop P sk env st.journal (List.range len) st.confirmed
    match pr.exit with
    | .returned => ({ st with confirmed := pr.conf }, pr.evs, true)
    | .aborted => ({ st with confirmed := pr.conf }, pr.evs, false)
    | _ =>
      let st₁ := { st with confirmed := pr.conf }
      if env.wsNonPong = 0 ∧ st.initialSyncComplete = true then
        (st₁, pr.evs ++ [.fullySync], true)
      else
        match env.state with
        | .netErr => (st₁, pr.evs, false)
        | .badStatus => (st₁, pr.evs, true)
        | .ok remote =>
          let st₂ := { st₁ with initialSyncComplete := true }
          let plr := pullLoop P sk env (remote - len) len st.journal pr.conf
          ({ st₂ with journal := plr.journal, confirmed := plr.conf },
           pr.evs ++ plr.evs
             ++ (if plr.cur = remote then [.fullySync] else []),
           plr.ok)

/-- The ways the per-cloud state changes between ticks: a tick with some
network environment, a locally committed transaction appended to the
journal, or toggling synchronization (`set_synchronization_enabled`,
which also clears `initial_sync_complete` when disabling). -/
inductive SyncAct where
  | tickWith (env : TickEnv)
  | localAppend (tx : JournalTransaction)
  | setEnabled (b : Bool)

def applySyncAct (P : Prims) (sk : Bytes) (st : SyncSt) :
    SyncAct → SyncSt × List Ev
  | .tickWith env =>
      let r := tick P sk st env
      (r.1, r.2.1)
  | .localAppend tx => ({ st with journal := st.journal ++ [tx] }, [])
  | .setEnabled b =>
      let isc := if b then st.initialSyncComplete else false
      ({ st with syncEnabled := b, initialSyncComplete := isc }, [])

def runSync (P : Prims) (sk : Bytes) : SyncSt → List SyncAct → SyncSt × List Ev
  | st, [] => (st, [])
  | st, a :: rest =>
      let r := applySyncAct P sk st a
      let r2 := runSync P sk r.1 rest
      (r2.1, r.2 ++ r2.2)

/-- The state of a freshly created `RemoteCloud` for an empty cloud:
`CloudSyncState::default()` has `latest_confirmed_index: None` and
synchronization enabled. -/
def initSync : SyncSt :=
  { journal := [], confirmed := none
    initialSyncComplete := false, syncEnabled := true }

/-! ### Monotonicity of the persisted cursor -/

/-- The values passed to `set_latest_confirmed_index`, in order. -/
def setsOf (evs : List Ev) : List Nat :=
  evs.filterMap fun e =>
    match e with
    | .setIdx v => some v
    | _ => none

/-- Predicate `chainMono prev vs`: each value in `vs` is at least the previously
stored cursor value (starting from `prev`). -/
def chainMono : Option Nat → List Nat → Prop
  | _, [] => True
  | prev, v :: rest => (∀ c, prev = some c → c ≤ v) ∧ chainMono (some v) rest

/-- The cursor value stored after a run of sets starting from `conf`. -/
def endConf (conf : Option Nat) : List Nat → Option Nat
  | [] => conf
  | v :: rest => endConf (some v) rest

theorem chainMono_append : ∀ (xs : List Nat) (c : Option Nat) (ys : List Nat),
    chainMono c xs → chainMono (endConf c xs) ys → chainMono c (xs ++ ys) := by
  intro xs
  induction xs with
  | nil => intro c ys _ h2; exact h2
  | cons x xs ih =>
      intro c ys h1 h2
      exact ⟨h1.1, ih (some x) ys h1.2 h2⟩

theorem skipIdx_false {conf : Option Nat} {i : Nat}
    (h : skipIdx conf i = false) : ∀ c, conf = some c → c < i := by
  intro c hc
  subst hc
  simp [skipIdx] at h
  omega

theorem pushLoop_chain (P : Prims) (sk : Bytes) (env : TickEnv)
    (journal : List JournalTransaction) :
    ∀ (idxs : List Nat) (conf : Option Nat),
      chainMono conf (setsOf (pushLoop P sk env journal idxs conf).evs)
      ∧ (pushLoop P sk env journal idxs conf).conf
          = endConf conf (setsOf (pushLoop P sk env journal idxs conf).evs)
      ∧ ∀ v ∈ setsOf (pushLoop P sk env journal idxs conf).evs, v ∈ idxs := by
  intro idxs
  induction idxs with
  | nil =>
      intro conf
      refine ⟨trivial, rfl, ?_⟩
      intro v hv
      simp [pushLoop, setsOf] at hv
  | cons i rest ih =>
      intro conf
      by_cases hs : skipIdx conf i = true
      · have he : pushLoop P sk env journal (i :: rest) conf
            = pushLoop P sk env journal rest conf := by
          simp only [pushLoop, hs, if_true]
        rw [he]
        refine ⟨(ih conf).1, (ih conf).2.1, ?_⟩
        intro v hv
        exact List.mem_cons_of_mem i ((ih conf).2.2 v hv)
      · have hs' : skipIdx conf i = false := by
          simpa using hs
        have hlt := skipIdx_false hs'
        have hstep : ∀ (evs₀ : List Ev),
            setsOf (Ev.setIdx i :: evs₀) = i :: setsOf evs₀ := by
          intro evs₀
          simp [setsOf]
        have hmain : chainMono conf
              (i :: setsOf (pushLoop P sk env journal rest (some i)).evs)
            ∧ (pushLoop P sk env journal rest (some i)).conf
                = endConf conf
                    (i :: setsOf (pushLoop P sk env journal rest (some i)).evs)
            ∧ ∀ v ∈ i :: setsOf (pushLoop P sk env journal rest (some i)).evs,
                v ∈ i :: rest := by
          obtain ⟨ih1, ih2, ih3⟩ := ih (some i)
          refine ⟨⟨fun c hc => Nat.le_of_lt (hlt c hc), ih1⟩, ih2, ?_⟩
          intro v hv
          rcases List.mem_cons.mp hv with h | h
          · exact h ▸ List.mem_cons_self i rest
          · exact List.mem_cons_of_mem i (ih3 v h)
        cases h1 : journal.get? i with
        | none =>
            simp only [pushLoop, hs', Bool.false_eq_true, if_false, h1]
            exact ⟨trivial, rfl, by intro v hv; simp [setsOf] at hv⟩
        | some tx =>
          cases h2 : env.get i with
          | netErr =>
              simp only [pushLoop, hs', Bool.false_eq_true, if_false, h1, h2]
              exact ⟨trivial, rfl, by intro v hv; simp [setsOf] at hv⟩
          | badStatus =>
              simp only [pushLoop, hs', Bool.false_eq_true, if_false, h1, h2]
              exact ⟨trivial, rfl, by intro v hv; simp [setsOf] at hv⟩
          | failedDep =>
              cases h3 : env.post i with
              | netErr =>
                  simp only [pushLoop, hs', Bool.false_eq_true, if_false, h1, h2, h3]
                  exact ⟨trivial, rfl, by intro v hv; simp [setsOf] at hv⟩
              | badStatus =>
                  simp only [pushLoop, hs', Bool.false_eq_true, if_false, h1, h2, h3]
                  exact ⟨trivial, rfl, by intro v hv; simp [setsOf] at hv⟩
              | ok =>
                  simp only [pushLoop, hs', Bool.false_eq_true, if_false, h1, h2, h3]
                  simpa [setsOf] using hmain
          | ok body =>
              cases h3 : P.parseMutation body with
              | none =>
                  simp only [pushLoop, hs', Bool.false_eq_true, if_false, h1, h2, h3]
                  exact ⟨trivial, rfl, by intro v hv; simp [setsOf] at hv⟩
              | some m =>
                cases h4 : Cloud.decrypt_tx P sk m with
                | none =>
                    simp only [pushLoop, hs', Bool.false_eq_true, if_false, h1, h2, h3, h4]
                    exact ⟨trivial, rfl, by intro v hv; simp [setsOf] at hv⟩
                | some rtx =>
                  by_cases hmi : m.index = i
                  · by_cases hh : P.txHash rtx = P.txHash tx
                    · simp only [pushLoop, hs', Bool.false_eq_true, if_false, h1, h2,
                        h3, h4, hmi, if_neg (not_not_intro rfl), if_pos hh]
                      simpa [setsOf] using hmain
                    · simp only [pushLoop, hs', Bool.false_eq_true, if_false, h1, h2,
                        h3, h4, hmi, if_neg (not_not_intro rfl), if_neg hh]
                      exact ⟨trivial, rfl, by intro v hv; simp [setsOf] at hv⟩
                  · simp only [pushLoop, hs', Bool.false_eq_true, if_false, h1, h2,
                      h3, h4, if_pos hmi]
                    exact ⟨trivial, rfl, by intro v hv; simp [setsOf] at hv⟩

theorem setsOf_append (a b : List Ev) : setsOf (a ++ b) = setsOf a ++ setsOf b := by
  simp [setsOf]

theorem endConf_append (c : Option Nat) :
    ∀ (xs ys : List Nat), endConf c (xs ++ ys) = endConf (endConf c xs) ys := by
  intro xs
  induction xs generalizing c with
  | nil => intro ys; rfl
  | cons x xs ih => intro ys; exact ih (some x) ys

theorem endConf_cases (c : Option Nat) :
    ∀ (xs : List Nat), endConf c xs = c ∨ ∃ v ∈ xs, endConf c xs = some v := by
  intro xs
  induction xs generalizing c with
  | nil => exact Or.inl rfl
  | cons x xs ih =>
      rcases ih (some x) with h | ⟨v, hv, h⟩
      · exact Or.inr ⟨x, List.mem_cons_self x xs, h⟩
      · exact Or.inr ⟨v, List.mem_cons_of_mem x hv, h⟩

theorem pullLoop_chain (P : Prims) (sk : Bytes) (env : TickEnv) :
    ∀ (fuel cur : Nat) (j : List JournalTransaction) (conf : Option Nat),
      cur = j.length → (∀ c, conf = some c → c < cur) →
      chainMono conf (setsOf (pullLoop P sk env fuel cur j conf).evs)
      ∧ (pullLoop P sk env fuel cur j conf).conf
          = endConf conf (setsOf (pullLoop P sk env fuel cur j conf).evs)
      ∧ (∀ c, (pullLoop P sk env fuel cur j conf).conf = some c →
          c < (pullLoop P sk env fuel cur j conf).journal.length) := by
  intro fuel
  induction fuel with
  | zero =>
      intro cur j conf hcur hconf
      simp only [pullLoop]
      refine ⟨trivial, rfl, ?_⟩
      intro c hc
      have := hconf c hc
      omega
  | succ fuel ih =>
      intro cur j conf hcur hconf
      cases h1 : env.get cur with
      | netErr =>
          simp only [pullLoop, h1]
          refine ⟨trivial, rfl, ?_⟩
          intro c hc
          have := hconf c hc
          omega
      | failedDep =>
          simp only [pullLoop, h1]
          refine ⟨trivial, rfl, ?_⟩
          intro c hc
          have := hconf c hc
          omega
      | badStatus =>
          simp only [pullLoop, h1]
          refine ⟨trivial, rfl, ?_⟩
          intro c hc
          have := hconf c hc
          omega
      | ok body =>
          cases h2 : P.parseMutation body with
          | none =>
              simp only [pullLoop, h1, h2]
              refine ⟨trivial, rfl, ?_⟩
              intro c hc
              have := hconf c hc
              omega
          | some m =>
            cases h3 : Cloud.decrypt_tx P sk m with
            | none =>
                simp only [pullLoop, h1, h2, h3]
                refine ⟨trivial, rfl, ?_⟩
                intro c hc
                have := hconf c hc
                omega
            | some rtx =>
              by_cases h4 : appendOk P j rtx = true
              · have hcur' : cur + 1 = (j ++ [rtx]).length := by
                  simp [hcur]
                have hconf' : ∀ c, (some cur : Option Nat) = some c → c < cur + 1 := by
                  intro c hc
                  cases hc
                  omega
                obtain ⟨ih1, ih2, ih3⟩ := ih (cur + 1) (j ++ [rtx]) (some cur) hcur' hconf'
                simp only [pullLoop, h1, h2, h3, h4, if_true]
                have hsets : setsOf (Ev.downloading cur :: Ev.appended rtx :: Ev.setIdx cur
                      :: Ev.remoteUpdate
                      :: (pullLoop P sk env fuel (cur + 1) (j ++ [rtx]) (some cur)).evs)
                    = cur :: setsOf (pullLoop P sk env fuel (cur + 1) (j ++ [rtx]) (some cur)).evs := by
                  simp [setsOf]
                rw [hsets]
                refine ⟨⟨fun c hc => Nat.le_of_lt (hconf c hc), ih1⟩, ih2, ih3⟩
              · have h4' : appendOk P j rtx = false := by
                  simpa using h4
                simp only [pullLoop, h1, h2, h3, h4', Bool.false_eq_true, if_false]
                refine ⟨trivial, rfl, ?_⟩
                intro c hc
                have := hconf c hc
                omega

/-- The reachability invariant of the per-cloud sync state: the persisted
cursor, when set, points into the local journal. -/
def SyncInv (st : SyncSt) : Prop :=
  ∀ c, st.confirmed = some c → c < st.journal.length

theorem tick_chain (P : Prims) (sk : Bytes) (st : SyncSt) (env : TickEnv)
    (hInv : SyncInv st) :
    chainMono st.confirmed (setsOf (tick P sk st env).2.1)
    ∧ SyncInv (tick P sk st env).1
    ∧ (tick P sk st env).1.confirmed
        = endConf st.confirmed (setsOf (tick P sk st env).2.1) := by
  by_cases hen : st.syncEnabled = false
  · simp only [tick, hen, if_true]
    exact ⟨trivial, hInv, rfl⟩
  · have hen' : (st.syncEnabled = false) = False := by
      simp [hen]
    obtain ⟨p1, p2, p3⟩ := pushLoop_chain P sk env st.journal
      (List.range st.journal.length) st.confirmed
    have hmid : ∀ c, (pushLoop P sk env st.journal (List.range st.journal.length)
        st.confirmed).conf = some c → c < st.journal.length := by
      intro c hc
      rw [p2] at hc
      rcases endConf_cases st.confirmed
          (setsOf (pushLoop P sk env st.journal (List.range st.journal.length)
            st.confirmed).evs) with h | ⟨v, hv, h⟩
      · exact hInv c (h ▸ hc)
      · rw [h] at hc
        cases hc
        exact List.mem_range.mp (p3 c hv)
    simp only [tick, hen', if_false]
    cases hex : (pushLoop P sk env st.journal (List.range st.journal.length)
        st.confirmed).exit with
    | returned => exact ⟨p1, hmid, p2⟩
    | aborted => exact ⟨p1, hmid, p2⟩
    | done =>
        by_cases hws : env.wsNonPong = 0 ∧ st.initialSyncComplete = true
        · rw [if_pos hws, setsOf_append]
          have h0 : setsOf [Ev.fullySync] = [] := rfl
          rw [h0, List.append_nil]
          exact ⟨p1, hmid, p2⟩
        · rw [if_neg hws]
          cases hst : env.state with
          | netErr => exact ⟨p1, hmid, p2⟩
          | badStatus => exact ⟨p1, hmid, p2⟩
          | ok remote =>
              obtain ⟨q1, q2, q3⟩ := pullLoop_chain P sk env
                (remote - st.journal.length) st.journal.length st.journal
                (pushLoop P sk env st.journal (List.range st.journal.length)
                  st.confirmed).conf rfl hmid
              have hite : setsOf (if (pullLoop P sk env (remote - st.journal.length)
                  st.journal.length st.journal
                  (pushLoop P sk env st.journal (List.range st.journal.length)
                    st.confirmed).conf).cur = remote
                  then [Ev.fullySync] else []) = [] := by
                split <;> rfl
              refine ⟨?_, fun c hc => q3 c hc, ?_⟩
              · rw [setsOf_append, setsOf_append, hite, List.append_nil]
                refine chainMono_append _ _ _ p1 ?_
                rw [← p2]
                exact q1
              · rw [setsOf_append, setsOf_append, hite, List.append_nil,
                  endConf_append, ← p2]
                exact q2
    | broke =>
        by_cases hws : env.wsNonPong = 0 ∧ st.initialSyncComplete = true
        · rw [if_pos hws, setsOf_append]
          have h0 : setsOf [Ev.fullySync] = [] := rfl
          rw [h0, List.append_nil]
          exact ⟨p1, hmid, p2⟩
        · rw [if_neg hws]
          cases hst : env.state with
          | netErr => exact ⟨p1, hmid, p2⟩
          | badStatus => exact ⟨p1, hmid, p2⟩
          | ok remote =>
              obtain ⟨q1, q2, q3⟩ := pullLoop_chain P sk env
                (remote - st.journal.length) st.journal.length st.journal
                (pushLoop P sk env st.journal (List.range st.journal.length)
                  st.confirmed).conf rfl hmid
              have hite : setsOf (if (pullLoop P sk env (remote - st.journal.length)
                  st.journal.length st.journal
                  (pushLoop P sk env st.journal (List.range st.journal.length)
                    st.confirmed).conf).cur = remote
                  then [Ev.fullySync] else []) = [] := by
                split <;> rfl
              refine ⟨?_, fun c hc => q3 c hc, ?_⟩
              · rw [setsOf_append, setsOf_append, hite, List.append_nil]
                refine chainMono_append _ _ _ p1 ?_
                rw [← p2]
                exact q1
              · rw [setsOf_append, setsOf_append, hite, List.append_nil,
                  endConf_append, ← p2]
                exact q2

theorem applySyncAct_chain (P : Prims) (sk : Bytes) (st : SyncSt)
    (a : SyncAct) (hInv : SyncInv st) :
    chainMono st.confirmed (setsOf (applySyncAct P sk st a).2)
    ∧ SyncInv (applySyncAct P sk st a).1
    ∧ (applySyncAct P sk st a).1.confirmed
        = endConf st.confirmed (setsOf (applySyncAct P sk st a).2) := by
  cases a with
  | tickWith env => exact tick_chain P sk st env hInv
  | localAppend tx =>
      refine ⟨trivial, ?_, rfl⟩
      intro c hc
      have := hInv c hc
      simp only [applySyncAct]
      simp
      omega
  | setEnabled b => exact ⟨trivial, hInv, rfl⟩

theorem runSync_chain (P : Prims) (sk : Bytes) :
    ∀ (acts : List SyncAct) (st : SyncSt), SyncInv st →
      chainMono st.confirmed (setsOf (runSync P sk st acts).2)
      ∧ SyncInv (runSync P sk st acts).1
      ∧ (runSync P sk st acts).1.confirmed
          = endConf st.confirmed (setsOf (runSync P sk st acts).2) := by
  intro acts
  induction acts with
  | nil =>
      intro st hInv
      exact ⟨trivial, hInv, rfl⟩
  | cons a rest ih =>
      intro st hInv
      obtain ⟨s1, s2, s3⟩ := applySyncAct_chain P sk st a hInv
      obtain ⟨r1, r2, r3⟩ := ih (applySyncAct P sk st a).1 s2
      have he : runSync P sk st (a :: rest)
          = ((runSync P sk (applySyncAct P sk st a).1 rest).1,
             (applySyncAct P sk st a).2 ++ (runSync P sk (applySyncAct P sk st a).1 rest).2) := by
        simp only [runSync]
      rw [he]
      refine ⟨?_, r2, ?_⟩
      · rw [setsOf_append]
        refine chainMono_append _ _ _ s1 ?_
        rw [← s3]
        exact r1
      · rw [setsOf_append, endConf_append, ← s3]
        exact r3

/-- Claim C9: Across any sequence of actions on a `RemoteCloud` — ticks
with arbitrary network outcomes (including transport errors, push
failures and divergence), local journal appends, and toggling the
synchronization flag — the values successively passed to
`set_latest_confirmed_index` never decrease: each stored value is at
least the previously stored one. -/
theorem latest_confirmed_index_monotone (P : Prims) (sk : Bytes)
    (acts : List SyncAct) :
    chainMono none (setsOf (runSync P sk initSync acts).2) :=
  (runSync_chain P sk acts initSync (fun _ hc => Option.noConfusion hc)).1

/-! ### Divergence halts the tick -/

theorem pushLoop_diverged (P : Prims) (sk : Bytes) (env : TickEnv)
    (journal : List JournalTransaction) (d : Nat) :
    ∀ (idxs : List Nat) (conf : Option Nat),
      idxs.Pairwise (· < ·) →
      Ev.diverged d ∈ (pushLoop P sk env journal idxs conf).evs →
      (pushLoop P sk env journal idxs conf).exit = .returned
      ∧ (∀ k, Ev.posted k ∈ (pushLoop P sk env journal idxs conf).evs → k < d)
      ∧ (∀ v, Ev.setIdx v ∈ (pushLoop P sk env journal idxs conf).evs → v < d)
      ∧ (∀ tx, Ev.appended tx ∉ (pushLoop P sk env journal idxs conf).evs)
      ∧ (∀ c, conf = some c → c < d)
      ∧ ∃ body m rtx tx, env.get d = GetRes.ok body
          ∧ P.parseMutation body = some m
          ∧ Cloud.decrypt_tx P sk m = some rtx
          ∧ journal.get? d = some tx
          ∧ P.txHash rtx ≠ P.txHash tx := by
  intro idxs
  induction idxs with
  | nil =>
      intro conf _ hd
      simp [pushLoop] at hd
  | cons i rest ih =>
      intro conf hpw hd
      obtain ⟨hilt, hpw'⟩ := List.pairwise_cons.mp hpw
      by_cases hs : skipIdx conf i = true
      · have he : pushLoop P sk env journal (i :: rest) conf
            = pushLoop P sk env journal rest conf := by
          simp only [pushLoop, hs, if_true]
        rw [he] at hd ⊢
        exact ih conf hpw' hd
      · have hs' : skipIdx conf i = false := by simpa using hs
        have hlt := skipIdx_false hs'
        cases h1 : journal.get? i with
        | none =>
            simp only [pushLoop, hs', Bool.false_eq_true, if_false, h1] at hd
            simp at hd
        | some tx =>
          cases h2 : env.get i with
          | netErr =>
              simp only [pushLoop, hs', Bool.false_eq_true, if_false, h1, h2] at hd
              simp at hd
          | badStatus =>
              simp only [pushLoop, hs', Bool.false_eq_true, if_false, h1, h2] at hd
              simp at hd
          | failedDep =>
              cases h3 : env.post i with
              | netErr =>
                  simp only [pushLoop, hs', Bool.false_eq_true, if_false, h1, h2, h3] at hd
                  simp at hd
              | badStatus =>
                  simp only [pushLoop, hs', Bool.false_eq_true, if_false, h1, h2, h3] at hd
                  simp at hd
              | ok =>
                  simp only [pushLoop, hs', Bool.false_eq_true, if_false, h1, h2, h3] at hd ⊢
                  have hdr : Ev.diverged d
                      ∈ (pushLoop P sk env journal rest (some i)).evs := by
                    simpa using hd
                  obtain ⟨c1, c2, c3, c4, c5, c6⟩ := ih (some i) hpw' hdr
                  have hid : i < d := c5 i rfl
                  refine ⟨c1, ?_, ?_, ?_, ?_, c6⟩
                  · intro k hk
                    rcases List.mem_cons.mp hk with h | hk
                    · exact absurd h (by simp)
                    rcases List.mem_cons.mp hk with h | hk
                    · cases h; exact hid
                    rcases List.mem_cons.mp hk with h | hk
                    · exact absurd h (by simp)
                    exact c2 k hk
                  · intro v hv
                    rcases List.mem_cons.mp hv with h | hv
                    · exact absurd h (by simp)
                    rcases List.mem_cons.mp hv with h | hv
                    · exact absurd h (by simp)
                    rcases List.mem_cons.mp hv with h | hv
                    · cases h; exact hid
                    exact c3 v hv
                  · intro tx0 htx
                    rcases List.mem_cons.mp htx with h | htx
                    · exact absurd h (by simp)
                    rcases List.mem_cons.mp htx with h | htx
                    · exact absurd h (by simp)
                    rcases List.mem_cons.mp htx with h | htx
                    · exact absurd h (by simp)
                    exact c4 tx0 htx
                  · intro c hc
                    exact Nat.lt_trans (hlt c hc) hid
          | ok body =>
              cases h3 : P.parseMutation body with
              | none =>
                  simp only [pushLoop, hs', Bool.false_eq_true, if_false, h1, h2, h3] at hd
                  simp at hd
              | some m =>
                cases h4 : Cloud.decrypt_tx P sk m with
                | none =>
                    simp only [pushLoop, hs', Bool.false_eq_true, if_false, h1, h2, h3, h4] at hd
                    simp at hd
                | some rtx =>
                  by_cases hmi : m.index = i
                  · by_cases hh : P.txHash rtx = P.txHash tx
                    · simp only [pushLoop, hs', Bool.false_eq_true, if_false, h1, h2,
                        h3, h4, hmi, if_neg (not_not_intro rfl), if_pos hh] at hd ⊢
                      have hdr : Ev.diverged d
                          ∈ (pushLoop P sk env journal rest (some i)).evs := by
                        simpa using hd
                      obtain ⟨c1, c2, c3, c4, c5, c6⟩ := ih (some i) hpw' hdr
                      have hid : i < d := c5 i rfl
                      refine ⟨c1, ?_, ?_, ?_, ?_, c6⟩
                      · intro k hk
                        rcases List.mem_cons.mp hk with h | hk
                        · exact absurd h (by simp)
                        rcases List.mem_cons.mp hk with h | hk
                        · exact absurd h (by simp)
                        exact c2 k hk
                      · intro v hv
                        rcases List.mem_cons.mp hv with h | hv
                        · cases h; exact hid
                        rcases List.mem_cons.mp hv with h | hv
                        · exact absurd h (by simp)
                        exact c3 v hv
                      · intro tx0 htx
                        rcases List.mem_cons.mp htx with h | htx
                        · exact absurd h (by simp)
                        rcases List.mem_cons.mp htx with h | htx
                        · exact absurd h (by simp)
                        exact c4 tx0 htx
                      · intro c hc
                        exact Nat.lt_trans (hlt c hc) hid
                    · simp only [pushLoop, hs', Bool.false_eq_true, if_false, h1, h2,
                        h3, h4, hmi, if_neg (not_not_intro rfl), if_neg hh] at hd ⊢
                      have hdi : d = i := by
                        simpa using hd
                      subst hdi
                      refine ⟨by trivial, ?_, ?_, ?_, ?_, ?_⟩
                      · intro k hk
                        rcases List.mem_cons.mp hk with h | hk
                        · exact absurd h (by simp)
                        · simp at hk
                      · intro v hv
                        rcases List.mem_cons.mp hv with h | hv
                        · exact absurd h (by simp)
                        · simp at hv
                      · intro tx0 htx
                        rcases List.mem_cons.mp htx with h | htx
                        · exact absurd h (by simp)
                        · simp at htx
                      · exact hlt
                      · exact ⟨body, m, rtx, tx, h2, h3, h4, h1, hh⟩
                  · simp only [pushLoop, hs', Bool.false_eq_true, if_false, h1, h2,
                      h3, h4, if_pos hmi] at hd
                    simp at hd

theorem pullLoop_no_diverged (P : Prims) (sk : Bytes) (env : TickEnv) (d : Nat) :
    ∀ (fuel cur : Nat) (j : List JournalTransaction) (conf : Option Nat),
      Ev.diverged d ∉ (pullLoop P sk env fuel cur j conf).evs := by
  intro fuel
  induction fuel with
  | zero =>
      intro cur j conf hd
      simp [pullLoop] at hd
  | succ fuel ih =>
      intro cur j conf hd
      cases h1 : env.get cur with
      | netErr => simp only [pullLoop, h1] at hd; simp at hd
      | failedDep => simp only [pullLoop, h1] at hd; simp at hd
      | badStatus => simp only [pullLoop, h1] at hd; simp at hd
      | ok body =>
          cases h2 : P.parseMutation body with
          | none => simp only [pullLoop, h1, h2] at hd; simp at hd
          | some m =>
            cases h3 : Cloud.decrypt_tx P sk m with
            | none => simp only [pullLoop, h1, h2, h3] at hd; simp at hd
            | some rtx =>
              by_cases h4 : appendOk P j rtx = true
              · simp only [pullLoop, h1, h2, h3, h4, if_true] at hd
                have : Ev.diverged d
                    ∈ (pullLoop P sk env fuel (cur + 1) (j ++ [rtx]) (some cur)).evs := by
                  simpa using hd
                exact ih (cur + 1) (j ++ [rtx]) (some cur) this
              · have h4' : appendOk P j rtx = false := by simpa using h4
                simp only [pullLoop, h1, h2, h3, h4', Bool.false_eq_true, if_false] at hd
                simp at hd

/-- Claim C8, amended: Whenever a tick reports divergence at index `d` —
which happens exactly when the relay returned, at the first reached
unconfirmed index `d`, a mutation whose decrypted transaction hash
differs from the hash of the local transaction at `d` — the tick returns
`Ok` right there: nothing is appended to the local journal, no POST is
issued at `d` or any later index, and `set_latest_confirmed_index` is
never called with a value `≥ d` (indices before `d` may still have been
confirmed earlier in the same tick). -/
theorem tick_divergence_halts (P : Prims) (sk : Bytes) (st : SyncSt)
    (env : TickEnv) (d : Nat)
    (hd : Ev.diverged d ∈ (tick P sk st env).2.1) :
    (tick P sk st env).1.journal = st.journal
    ∧ (tick P sk st env).2.2 = true
    ∧ (∀ k, Ev.posted k ∈ (tick P sk st env).2.1 → k < d)
    ∧ (∀ v, Ev.setIdx v ∈ (tick P sk st env).2.1 → v < d)
    ∧ (∀ tx, Ev.appended tx ∉ (tick P sk st env).2.1)
    ∧ (∀ c, st.confirmed = some c → c < d)
    ∧ ∃ body m rtx tx, env.get d = GetRes.ok body
        ∧ P.parseMutation body = some m
        ∧ Cloud.decrypt_tx P sk m = some rtx
        ∧ st.journal.get? d = some tx
        ∧ P.txHash rtx ≠ P.txHash tx := by
  by_cases hen : st.syncEnabled = false
  · simp only [tick, hen, if_true] at hd
    simp at hd
  · have hen' : (st.syncEnabled = false) = False := by simp [hen]
    simp only [tick, hen', if_false] at hd ⊢
    cases hex : (pushLoop P sk env st.journal (List.range st.journal.length)
        st.confirmed).exit with
    | returned =>
        rw [hex] at hd
        obtain ⟨c1, c2, c3, c4, c5, c6⟩ := pushLoop_diverged P sk env st.journal d
          (List.range st.journal.length) st.confirmed
          (List.pairwise_lt_range st.journal.length) hd
        exact ⟨rfl, rfl, c2, c3, c4, c5, c6⟩
    | aborted =>
        rw [hex] at hd
        have := (pushLoop_diverged P sk env st.journal d
          (List.range st.journal.length) st.confirmed
          (List.pairwise_lt_range st.journal.length) hd).1
        rw [hex] at this
        cases this
    | done =>
        rw [hex] at hd
        exfalso
        by_cases hws : env.wsNonPong = 0 ∧ st.initialSyncComplete = true
        · rw [if_pos hws] at hd
          have hdp : Ev.diverged d ∈ (pushLoop P sk env st.journal
              (List.range st.journal.length) st.confirmed).evs := by
            rcases List.mem_append.mp hd with h | h
            · exact h
            · simp at h
          have := (pushLoop_diverged P sk env st.journal d
            (List.range st.journal.length) st.confirmed
            (List.pairwise_lt_range st.journal.length) hdp).1
          rw [hex] at this
          cases this
        · rw [if_neg hws] at hd
          have hdp : Ev.diverged d ∈ (pushLoop P sk env st.journal
              (List.range st.journal.length) st.confirmed).evs := by
            cases hst : env.state with
            | netErr => rw [hst] at hd; exact hd
            | badStatus => rw [hst] at hd; exact hd
            | ok remote =>
                rw [hst] at hd
                rcases List.mem_append.mp hd with h | h
                · rcases List.mem_append.mp h with h' | h'
                  · exact h'
                  · exact absurd h' (pullLoop_no_diverged P sk env d _ _ _ _)
                · exfalso
                  revert h
                  split <;> simp
          have := (pushLoop_diverged P sk env st.journal d
            (List.range st.journal.length) st.confirmed
            (List.pairwise_lt_range st.journal.length) hdp).1
          rw [hex] at this
          cases this
    | broke =>
        rw [hex] at hd
        exfalso
        by_cases hws : env.wsNonPong = 0 ∧ st.initialSyncComplete = true
        · rw [if_pos hws] at hd
          have hdp : Ev.diverged d ∈ (pushLoop P sk env st.journal
              (List.range st.journal.length) st.confirmed).evs := by
            rcases List.mem_append.mp hd with h | h
            · exact h
            · simp at h
          have := (pushLoop_diverged P sk env st.journal d
            (List.range st.journal.length) st.confirmed
            (List.pairwise_lt_range st.journal.length) hdp).1
          rw [hex] at this
          cases this
        · rw [if_neg hws] at hd
          have hdp : Ev.diverged d ∈ (pushLoop P sk env st.journal
              (List.range st.journal.length) st.confirmed).evs := by
            cases hst : env.state with
            | netErr => rw [hst] at hd; exact hd
            | badStatus => rw [hst] at hd; exact hd
            | ok remote =>
                rw [hst] at hd
                rcases List.mem_append.mp hd with h | h
                · rcases List.mem_append.mp h with h' | h'
                  · exact h'
                  · exact absurd h' (pullLoop_no_diverged P sk env d _ _ _ _)
                · exfalso
                  revert h
                  split <;> simp
          have := (pushLoop_diverged P sk env st.journal d
            (List.range st.journal.length) st.confirmed
            (List.pairwise_lt_range st.journal.length) hdp).1
          rw [hex] at this
          cases this

/-- Claim C3, amended: `POST /mutate` responses of `BTKServer::handle_req`
for a body that parses: 400 when no public key can be resolved, 401 when
`verify` fails, 410 when the index differs from the stored count, 204 on
accept — with no state change in the three error cases.  An unparseable
body makes `handle_req` propagate an error with `?` and send **no**
response (not a 400).  The `btk_worker` relay additionally answers an
index mismatch with 400 rather than 410, also without a state change. -/
theorem mutate_response_codes (P : Prims) (st : ServerSt) (body : Bytes) :
    ((P.parseMutation body = none → serverStep P st (.mutate body) = (st, none))
     ∧ (∀ m, P.parseMutation body = some m →
         (resolveKey st m = none →
           serverStep P st (.mutate body) = (st, some (400, .empty)))
         ∧ (∀ pk, resolveKey st m = some pk →
             (Mutation.verify P m pk = false →
               serverStep P st (.mutate body) = (st, some (401, .empty)))
             ∧ (Mutation.verify P m pk = true →
                 m.index ≠ (st.tables m.public_key_hash).length →
                 serverStep P st (.mutate body) = (st, some (410, .empty)))
             ∧ (Mutation.verify P m pk = true →
                 m.index = (st.tables m.public_key_hash).length →
                 serverStep P st (.mutate body)
                   = (acceptMutation st m pk, some (204, .empty))))))
    ∧ (∀ (wst : WorkerSt) (m : Mutation) (pk : Bytes),
        P.parseMutation body = some m →
        workerResolveKey wst m = some pk →
        Mutation.verify P m pk = true →
        m.index ≠ workerLoadCount wst m.public_key_hash →
        workerMutate P wst body = (some 400, wst)) :=
  ⟨serverMutate_responses P st body,
   fun wst m pk hp hk hv hi => workerMutate_index_mismatch P wst body m pk hp hk hv hi⟩

/-- Claim C7, amended: For a `GET /mutation` with well-formed
parameters, `btk_server` answers 200 with the encoded stored mutation
when `index < count` and 404 when `index >= count` (in every reachable
state, by density).  The `btk_worker` relay, however, answers
**424** (FAILED_DEPENDENCY) — not 404 — when `index >= count`; the client
accordingly tests for 424. -/
theorem getMutation_response_codes (P : Prims) (reqs : List SReq)
    (cid : Bytes) (i : Nat) :
    ((i < ((serverRun P reqs).tables cid).length →
       ∃ m, assocGet i ((serverRun P reqs).tables cid) = some m
         ∧ (serverStep P (serverRun P reqs) (.getMutation cid i)).2
             = some (200, .mutation m))
     ∧ (((serverRun P reqs).tables cid).length ≤ i →
         (serverStep P (serverRun P reqs) (.getMutation cid i)).2
           = some (404, .empty)))
    ∧ (∀ (wst : WorkerSt) (idx : Nat), idx ≥ (workerCount wst cid).1 →
        (workerGetMutation wst cid idx).1 = some (424, none)) :=
  ⟨serverGet_spec P (serverRun P reqs) cid i (serverRun_dense P reqs),
   fun wst idx h => workerGetMutation_stale wst cid idx h⟩

/-- Claim C10: `Mutation::verify` itself does not require `public_key` to
be present at index 0: with `public_key = None` it succeeds whenever the
externally supplied key hashes to `public_key_hash` and the signature is
valid.  The index-0 key requirement is enforced only by the relay's key
resolution: when the mutation carries no key and none is known, the
relay answers 400 (before any verify or store). -/
theorem verify_without_embedded_key (P : Prims) (pk : Bytes) (m : Mutation)
    (st : ServerSt) (body : Bytes) :
    (m.index = 0 → m.public_key = none → P.blake3 pk = m.public_key_hash →
      P.sigOk pk m.data m.signature = true → Mutation.verify P m pk = true)
    ∧ (∀ m' : Mutation, P.parseMutation body = some m' →
        m'.public_key = none → st.pubKeys m'.public_key_hash = none →
        serverStep P st (.mutate body) = (st, some (400, .empty))) := by
  constructor
  · intro _ hpk hh hs
    unfold Mutation.verify
    rw [if_neg (not_not_intro hh)]
    rw [hpk]
    exact hs
  · intro m' hp hpk hkn
    have hr : resolveKey st m' = none := by
      unfold resolveKey
      rw [hpk, hkn]
    exact ((serverMutate_responses P st body).2 m' hp).1 hr

/-! ## Concrete instantiation of the external primitives

A small executable `Prims` instance used to evaluate the embedded code on
concrete inputs: an injective stand-in hash, a constant keystream byte, a
toy signature scheme satisfying sign/verify correctness, and a
length-prefixed codec for transactions and mutations satisfying the
parse/encode round-trip.  Byte values are unconstrained naturals, so the
codec may store lengths and tags directly. -/

def encB (l : Bytes) : Bytes := l.length :: l

def decB : Bytes → Option (Bytes × Bytes)
  | [] => none
  | n :: rest => if n ≤ rest.length then some (rest.take n, rest.drop n) else none

theorem decB_encB (l rest : Bytes) : decB (encB l ++ rest) = some (l, rest) := by
  simp [encB, decB, List.take_left, List.drop_left]

def encOp : Operation → Bytes
  | .insert t k v => 0 :: (encB t ++ encB k ++ encB v)
  | .remove t k => 1 :: (encB t ++ encB k)
  | .deleteTable t => 2 :: encB t

def decOp : Bytes → Option (Operation × Bytes)
  | [] => none
  | tag :: rest =>
    if tag = 0 then
      match decB rest with
      | none => none
      | some (t, r1) =>
        match decB r1 with
        | none => none
        | some (k, r2) =>
          match decB r2 with
          | none => none
          | some (v, r3) => some (.insert t k v, r3)
    else if tag = 1 then
      match decB rest with
      | none => none
      | some (t, r1) =>
        match decB r1 with
        | none => none
        | some (k, r2) => some (.remove t k, r2)
    else if tag = 2 then
      match decB rest with
      | none => none
      | some (t, r1) => some (.deleteTable t, r1)
    else none

theorem decOp_encOp (o : Operation) (rest : Bytes) :
    decOp (encOp o ++ rest) = some (o, rest) := by
  cases o with
  | insert t k v =>
      show decOp (0 :: (encB t ++ encB k ++ encB v) ++ rest) = _
      simp only [decOp, List.cons_append, List.append_assoc]
      simp [decB_encB]
  | remove t k =>
      show decOp (1 :: (encB t ++ encB k) ++ rest) = _
      simp only [decOp, List.cons_append, List.append_assoc]
      simp [decB_encB]
  | deleteTable t =>
      show decOp (2 :: encB t ++ rest) = _
      simp only [decOp, List.cons_append]
      simp [decB_encB]

def encOpsBody : List Operation → Bytes
  | [] => []
  | o :: os => encOp o ++ encOpsBody os

def decOps : Nat → Bytes → Option (List Operation × Bytes)
  | 0, rest => some ([], rest)
  | n + 1, rest =>
    match decOp rest with
    | none => none
    | some (o, r) =>
      match decOps n r with
      | none => none
      | some (os, r') => some (o :: os, r')

theorem decOps_encOpsBody (ops : List Operation) (rest : Bytes) :
    decOps ops.length (encOpsBody ops ++ rest) = some (ops, rest) := by
  induction ops with
  | nil => rfl
  | cons o os ih =>
      show decOps (os.length + 1) ((encOp o ++ encOpsBody os) ++ rest) = _
      rw [List.append_assoc]
      simp only [decOps, decOp_encOp, ih]

def toyEncodeTx (tx : JournalTransaction) : Bytes :=
  tx.index :: tx.operations.length
    :: (encOpsBody tx.operations ++ encB tx.last_tx_hash)

def toyParseTx : Bytes → Option JournalTransaction
  | idx :: nops :: rest =>
    (match decOps nops rest with
     | none => none
     | some (ops, r) =>
       match decB r with
       | none => none
       | some (h, _) =>
           some { index := idx, operations := ops, last_tx_hash := h })
  | _ => none

theorem decB_encB_nil (l : Bytes) : decB (encB l) = some (l, []) := by
  have := decB_encB l []
  simpa using this

theorem toyParseTx_encodeTx (tx : JournalTransaction) :
    toyParseTx (toyEncodeTx tx) = some tx := by
  show toyParseTx (tx.index :: tx.operations.length
    :: (encOpsBody tx.operations ++ encB tx.last_tx_hash)) = some tx
  simp only [toyParseTx, decOps_encOpsBody, decB_encB_nil]

def encOptB : Option Bytes → Bytes
  | none => [0]
  | some l => 1 :: encB l

def decOptB : Bytes → Option (Option Bytes × Bytes)
  | [] => none
  | tag :: rest =>
    if tag = 0 then some (none, rest)
    else if tag = 1 then
      match decB rest with
      | none => none
      | some (l, r) => some (some l, r)
    else none

theorem decOptB_encOptB (o : Option Bytes) (rest : Bytes) :
    decOptB (encOptB o ++ rest) = some (o, rest) := by
  cases o with
  | none => rfl
  | some l =>
      show decOptB (1 :: encB l ++ rest) = _
      simp only [decOptB, List.cons_append]
      simp [decB_encB]

def toyEncodeMutation (m : Mutation) : Bytes :=
  m.index :: (encB m.data ++ encB m.signature ++ encB m.public_key_hash
    ++ encOptB m.public_key ++ encB m.salt ++ encOptB m.mutation_key)

def toyParseMutation : Bytes → Option Mutation
  | idx :: rest =>
    (match decB rest with
     | none => none
     | some (dat, r1) =>
       match decB r1 with
       | none => none
       | some (sig, r2) =>
         match decB r2 with
         | none => none
         | some (h, r3) =>
           match decOptB r3 with
           | none => none
           | some (pk, r4) =>
             match decB r4 with
             | none => none
             | some (salt, r5) =>
               match decOptB r5 with
               | none => none
               | some (mk, _) =>
                   some { index := idx, data := dat, signature := sig
                          public_key_hash := h, public_key := pk
                          salt := salt, mutation_key := mk })
  | _ => none

theorem decOptB_encOptB_nil (o : Option Bytes) :
    decOptB (encOptB o) = some (o, []) := by
  have := decOptB_encOptB o []
  simpa using this

theorem toyParseMutation_encodeMutation (m : Mutation) :
    toyParseMutation (toyEncodeMutation m) = some m := by
  show toyParseMutation (m.index :: (encB m.data ++ encB m.signature
    ++ encB m.public_key_hash ++ encOptB m.public_key ++ encB m.salt
    ++ encOptB m.mutation_key)) = some m
  simp only [toyParseMutation, List.append_assoc, decB_encB, decOptB_encOptB,
    decOptB_encOptB_nil]

/-- The toy instantiation of the external primitives. -/
def toyPrims : Prims :=
  { blake3 := fun l => 0 :: l
    keystream := fun _ _ _ => 5
    mlDsaVk := fun sk => 1 :: sk
    mlDsaSign := fun sk msg => 2 :: (sk ++ msg)
    sigOk := fun vk msg sig => decide (sig = 2 :: (vk.drop 1 ++ msg))
    encodeTx := toyEncodeTx
    parseTx := toyParseTx
    encodeKeyPre := fun sk idx salt => idx :: (sk ++ 3 :: salt)
    txHash := toyEncodeTx
    parseMutation := toyParseMutation
    encodeMutation := toyEncodeMutation }

theorem toyGood : Good toyPrims := by
  refine ⟨?_, ?_, ?_⟩
  · intro sk msg
    simp [toyPrims]
  · intro tx
    exact toyParseTx_encodeTx tx
  · intro m
    exact toyParseMutation_encodeMutation m

/-! ## Concrete witnesses and counterexamples -/

/-- Closed instance of the round-trip theorem at a concrete secret,
transaction and salt. -/
theorem decrypt_encrypt_roundtrip_witness :
    Cloud.decrypt_tx toyPrims [9]
        (Cloud.encrypt_tx toyPrims [9] ⟨0, [], []⟩ [4]) = some ⟨0, [], []⟩ :=
  decrypt_encrypt_roundtrip toyPrims [9] ⟨0, [], []⟩ [4] toyGood

/-- The mutation posted in the C2/C3 witnesses: a genuine `encrypt_tx`
output at index 0. -/
def w2mut : Mutation := Cloud.encrypt_tx toyPrims [9] ⟨0, [], []⟩ [4]

def w2body : Bytes := toyPrims.encodeMutation w2mut

/-- Closed instance of the relay density/no-overwrite theorem: after one
accepted POST the table is dense at index 0 and a second request leaves
the stored mutation untouched. -/
theorem relay_dense_append_only_witness :
    ((assocGet 0 ((serverRun toyPrims [SReq.mutate w2body]).tables
          [0, 1, 9])).isSome
        ↔ 0 < ((serverRun toyPrims [SReq.mutate w2body]).tables [0, 1, 9]).length)
    ∧ assocGet 0 ((serverStep toyPrims (serverRun toyPrims [SReq.mutate w2body])
          (SReq.mutate w2body)).1.tables [0, 1, 9]) = some w2mut := by
  refine ⟨(relay_dense_append_only toyPrims [SReq.mutate w2body] [0, 1, 9] 0).1, ?_⟩
  exact (relay_dense_append_only toyPrims [SReq.mutate w2body] [0, 1, 9] 0).2.2
    (SReq.mutate w2body) w2mut (by decide)

/-- Counterexample to C3 as stated: An unparseable `POST /mutate` body does not
produce a 400 response: `handle_req` propagates the parse error and sends
no response at all. -/
theorem mutate_unparseable_no_response :
    (serverStep toyPrims ServerSt.empty (SReq.mutate [])).2 = none
    ∧ (serverStep toyPrims ServerSt.empty (SReq.mutate [])).2
        ≠ some (400, SPayload.empty) := by
  exact ⟨rfl, by decide⟩

/-- A mutation whose signature does not verify, for the C3 witness. -/
def w3bad : Mutation :=
  { index := 0, data := [5], signature := [7], public_key_hash := [0, 1, 9]
    public_key := some [1, 9], salt := [4], mutation_key := none }

/-- Closed instance of the response-code theorem: the unparseable body
gets no response, and a parsed mutation with a bad signature gets 401
with no state change. -/
theorem mutate_response_codes_witness :
    serverStep toyPrims ServerSt.empty (SReq.mutate []) = (ServerSt.empty, none)
    ∧ serverStep toyPrims ServerSt.empty
        (SReq.mutate (toyPrims.encodeMutation w3bad))
        = (ServerSt.empty, some (401, SPayload.empty)) := by
  constructor
  · exact (mutate_response_codes toyPrims ServerSt.empty []).1.1 rfl
  · exact (((mutate_response_codes toyPrims ServerSt.empty
        (toyPrims.encodeMutation w3bad)).1.2 w3bad
        (toyParseMutation_encodeMutation w3bad)).2 [1, 9] rfl).1 (by decide)

/-- Counterexample to C7 as stated: With no stored mutations (`count = 0`) the
worker relay answers `GET /mutation?index=0` with 424, not the 404 the
claim states. -/
theorem worker_get_status_counterexample :
    (workerGetMutation WorkerSt.empty [0] 0).1 = some (424, none)
    ∧ (424 : Nat) ≠ 404
    ∧ 0 ≥ (workerCount WorkerSt.empty [0]).1 := by
  refine ⟨by decide, by decide, by decide⟩

/-- Closed instance of the `GET /mutation` response theorem: 404 from
`btk_server` on an empty cloud, 424 from the worker. -/
theorem getMutation_response_codes_witness :
    (serverStep toyPrims (serverRun toyPrims []) (SReq.getMutation [0] 0)).2
        = some (404, SPayload.empty)
    ∧ (workerGetMutation WorkerSt.empty [0] 0).1 = some (424, none) := by
  refine ⟨(getMutation_response_codes toyPrims [] [0] 0).1.2 (by decide),
    (getMutation_response_codes toyPrims [] [0] 0).2 WorkerSt.empty 0 (by decide)⟩

/-- Counterexample to C5 as stated: A mutation whose envelope index is 5 but whose
decrypted transaction carries index 3 is accepted by `decrypt_tx` and
returned unchanged — no index comparison happens. -/
theorem decrypt_index_mismatch_counterexample :
    Cloud.decrypt_tx toyPrims [9] (encryptAt toyPrims [9] 5 ⟨3, [], []⟩ [4])
        = some ⟨3, [], []⟩
    ∧ (encryptAt toyPrims [9] 5 ⟨3, [], []⟩ [4]).index = 5
    ∧ (3 : Nat) ≠ 5 := by
  refine ⟨by decide, rfl, by decide⟩

/-- Closed instance of the amended C5 theorem at a concrete mismatched
pair of indices. -/
theorem decrypt_tx_ignores_inner_index_witness :
    Cloud.decrypt_tx toyPrims [9] (encryptAt toyPrims [9] 7 ⟨2, [], []⟩ [4])
        = some ⟨2, [], []⟩ :=
  decrypt_tx_ignores_inner_index toyPrims [9] ⟨2, [], []⟩ [4] 7 toyGood

/-- Closed instance of the key/nonce derivation theorem at a concrete
mutation. -/
theorem mutation_key_and_nonce_witness :
    (Cloud.encrypt_tx toyPrims [9] ⟨0, [], []⟩ [4]).data
        = chacha20Apply toyPrims (specDerivedKey toyPrims [9] 0 [4])
            (List.replicate 12 0) (toyPrims.encodeTx ⟨0, [], []⟩)
    ∧ Cloud.decrypt_tx toyPrims [9] (Cloud.encrypt_tx toyPrims [9] ⟨0, [], []⟩ [4])
        = toyPrims.parseTx (chacha20Apply toyPrims (specDerivedKey toyPrims [9] 0 [4])
            (List.replicate 12 0)
            (Cloud.encrypt_tx toyPrims [9] ⟨0, [], []⟩ [4]).data) := by
  constructor
  · exact (mutation_key_and_nonce toyPrims [9]).1 ⟨0, [], []⟩ [4]
  · exact (mutation_key_and_nonce toyPrims [9]).2
      (Cloud.encrypt_tx toyPrims [9] ⟨0, [], []⟩ [4]) rfl
      (verify_encrypt toyPrims [9] ⟨0, [], []⟩ [4] toyGood)

/-- The mutation with no embedded public key used in the C10 witness. -/
def w10m : Mutation :=
  { index := 0, data := [5, 5, 5], signature := 2 :: ([9] ++ [5, 5, 5])
    public_key_hash := [0, 1, 9], public_key := none
    salt := [4], mutation_key := none }

/-- Closed instance of the C10 theorem: `verify` passes at index 0
without an embedded key, and the relay answers 400 when the key is
unknown. -/
theorem verify_without_embedded_key_witness :
    Mutation.verify toyPrims w10m [1, 9] = true
    ∧ serverStep toyPrims ServerSt.empty
        (SReq.mutate (toyPrims.encodeMutation w10m))
        = (ServerSt.empty, some (400, SPayload.empty)) := by
  constructor
  · exact (verify_without_embedded_key toyPrims [1, 9] w10m ServerSt.empty
      (toyPrims.encodeMutation w10m)).1 rfl rfl rfl (by decide)
  · exact (verify_without_embedded_key toyPrims [1, 9] w10m ServerSt.empty
      (toyPrims.encodeMutation w10m)).2 w10m
      (toyParseMutation_encodeMutation w10m) rfl rfl

/-! Concrete divergence runs for C8. -/

def c8tx0 : JournalTransaction := ⟨0, [], []⟩

def c8alt0 : JournalTransaction := ⟨0, [Operation.deleteTable []], []⟩

def c8tx1 : JournalTransaction := ⟨1, [], []⟩

def c8alt1 : JournalTransaction := ⟨1, [Operation.deleteTable []], []⟩

/-- State with one local unconfirmed transaction; the relay returns a
different transaction at index 0. -/
def c8stA : SyncSt :=
  { journal := [c8tx0], confirmed := none
    initialSyncComplete := false, syncEnabled := true }

def c8envA : TickEnv :=
  { get := fun _ =>
      GetRes.ok (toyPrims.encodeMutation (Cloud.encrypt_tx toyPrims [9] c8alt0 [4]))
    post := fun _ => PostRes.netErr
    wsNonPong := 1
    state := StateRes.badStatus }

/-- Closed instance of the amended C8 theorem on a concrete diverging
tick: the journal is untouched and the tick still returns `Ok`. -/
theorem tick_divergence_halts_witness :
    (tick toyPrims [9] c8stA c8envA).1.journal = c8stA.journal
    ∧ (tick toyPrims [9] c8stA c8envA).2.2 = true := by
  refine ⟨(tick_divergence_halts toyPrims [9] c8stA c8envA 0 (by decide)).1,
    (tick_divergence_halts toyPrims [9] c8stA c8envA 0 (by decide)).2.1⟩

/-- State with two local unconfirmed transactions; the relay matches at
index 0 and diverges at index 1. -/
def c8stB : SyncSt :=
  { journal := [c8tx0, c8tx1], confirmed := none
    initialSyncComplete := false, syncEnabled := true }

def c8envB : TickEnv :=
  { get := fun i =>
      if i = 0 then
        GetRes.ok (toyPrims.encodeMutation (Cloud.encrypt_tx toyPrims [9] c8tx0 [4]))
      else
        GetRes.ok (toyPrims.encodeMutation (Cloud.encrypt_tx toyPrims [9] c8alt1 [4]))
    post := fun _ => PostRes.netErr
    wsNonPong := 1
    state := StateRes.badStatus }

/-- Counterexample to C8 as stated: A tick that detects divergence at index 1
still advances the persisted `latest_confirmed_index` (from `None` to
`Some 0`, for the matching index 0 processed earlier in the same tick),
so "the tick returns without advancing latest_confirmed_index" is false
as stated. -/
theorem tick_divergence_counterexample :
    Ev.diverged 1 ∈ (tick toyPrims [9] c8stB c8envB).2.1
    ∧ (tick toyPrims [9] c8stB c8envB).1.confirmed = some 0
    ∧ c8stB.confirmed = none := by
  refine ⟨by decide, by decide, rfl⟩

end BTK
